import Mathlib

/-!
# Page-replacement simulator: embedding of `src/main.cpp`

The resident set of a process is a `std::vector<Page>`; it is embedded as a
`List Page` in the same order (index 0 is `begin()`).  An iterator is embedded
as its index, `end()` being the length of the list.

Modelling conventions

* `int` fields are embedded as `Int`.  Signed overflow is undefined behaviour in
  C++, so the embedding describes the executions in which no signed operation
  overflows; every concrete evaluation below uses small values.
* `size_t` values are natural numbers; the conversion
  `static_cast<size_t>(int)` is embedded as reduction modulo `2^64`.
* `std::min_element` / `std::max_element` are embedded as the single left to
  right loop of the standard library, which keeps the first candidate unless
  the comparator asks for a change.
* `processes[i]` with `i` out of range has no defined behaviour; `runSimulation`
  returns `none` there.
-/

namespace PageSim

/-! ## Data model (main.cpp lines 20-49) -/

/-- The `Page` struct. -/
structure Page where
  processID : Int
  frameID : Int
  pageNumber : Int
  frequency : Int
  accessTime : Int
  kthAccessTime : Int
deriving DecidableEq, Repr

/-- The `Process` struct. -/
structure Process where
  id : Int
  size : Int
  isFinished : Bool
  faultCount : Int
  minWorkset : Nat
  maxWorkset : Nat
  pages : List Page
  historyPages : List Int
deriving DecidableEq, Repr

/-- The `DPT` struct: one entry of the access trace. -/
structure DPT where
  processID : Int
  pageNumber : Int
  time : Int
deriving DecidableEq, Repr

/-- The constant `INT_MAX` of `<climits>` for a 32-bit `int`. -/
def INT_MAX : Int := 2147483647

/-- The value `std::numeric_limits<size_t>::max()` for a 64-bit `size_t`. -/
def SIZE_MAX : Nat := 2 ^ 64 - 1

/-- The conversion `static_cast<size_t>(x)` of an `int`. -/
def sizeCast (x : Int) : Nat := (x % 2 ^ 64).toNat

/-! ## Standard-library algorithms -/

/-- Loop of `std::min_element`: `bi` is the index of the current candidate `b`,
`i` the index of the head of the remaining range.  The candidate changes when
`comp x b` holds. -/
def minElementLoop {α : Type} (comp : α → α → Bool) : Nat → α → Nat → List α → Nat
  | bi, _, _, [] => bi
  | bi, b, i, x :: xs =>
    if comp x b then minElementLoop comp i x (i + 1) xs
    else minElementLoop comp bi b (i + 1) xs

/-- Index returned by `std::min_element(begin, end, comp)`; on an empty range it
is `end`, that is 0. -/
def min_element {α : Type} (comp : α → α → Bool) : List α → Nat
  | [] => 0
  | x :: xs => minElementLoop comp 0 x 1 xs

/-- Loop of `std::max_element`: the candidate changes when `comp b x` holds. -/
def maxElementLoop {α : Type} (comp : α → α → Bool) : Nat → α → Nat → List α → Nat
  | bi, _, _, [] => bi
  | bi, b, i, x :: xs =>
    if comp b x then maxElementLoop comp i x (i + 1) xs
    else maxElementLoop comp bi b (i + 1) xs

/-- Index returned by `std::max_element(begin, end, comp)`. -/
def max_element {α : Type} (comp : α → α → Bool) : List α → Nat
  | [] => 0
  | x :: xs => maxElementLoop comp 0 x 1 xs

/-- Lookup in a `std::map<int,int>` held as an association list
(`find` / `count` / reading `operator[]` on a present key). -/
def mapFind (m : List (Int × Int)) (key : Int) : Option Int :=
  (m.find? (fun kv => kv.1 == key)).map Prod.snd

/-- The assignment `m[key] = value` on a `std::map<int,int>`. -/
def mapAssign (m : List (Int × Int)) (key value : Int) : List (Int × Int) :=
  (key, value) :: m.filter (fun kv => kv.1 != key)

/-- The loop of lines 215-220: earliest time of each page number in the window. -/
def buildFutureAccessMap (futureAccesses : List DPT) : List (Int × Int) :=
  futureAccesses.foldl
    (fun m dpt =>
      match mapFind m dpt.pageNumber with
      | none => mapAssign m dpt.pageNumber dpt.time
      | some t => if t > dpt.time then mapAssign m dpt.pageNumber dpt.time else m)
    []

/-- The expression `futureAccessMap.count(n) ? futureAccessMap[n] : INT_MAX`. -/
def futureOf (futureAccessMap : List (Int × Int)) (pageNumber : Int) : Int :=
  match mapFind futureAccessMap pageNumber with
  | some t => t
  | none => INT_MAX

/-! ## Eviction (main.cpp lines 196-239) -/

/-- Comparator of the MRU branch (line 205). -/
def mruComp (a b : Page) : Bool := decide (a.accessTime > b.accessTime)

/-- Comparator of the LRU-X branch (lines 208-210). -/
def lruComp (currentTime : Int) (a b : Page) : Bool :=
  decide ((currentTime - a.kthAccessTime) > (currentTime - b.kthAccessTime))

/-- Comparator of the LFU branch (line 213). -/
def lfuComp (a b : Page) : Bool := decide (a.frequency < b.frequency)

/-- Comparator of the OPT-lookahead-X branch (lines 222-226). -/
def optComp (futureAccessMap : List (Int × Int)) (a b : Page) : Bool :=
  decide (futureOf futureAccessMap a.pageNumber > futureOf futureAccessMap b.pageNumber)

/-- Comparator of the WS branch (lines 231-233); the second argument is unused,
`timeThreshold` is the constant 10. -/
def wsComp (currentTime : Int) (a _b : Page) : Bool :=
  decide (currentTime - a.accessTime > 10)

/-- The iterator `pageIt` computed by `replacePage` on a non-empty resident set;
the value `pages.length` stands for `pages.end()`. -/
def victimIt (pages : List Page) (algorithm : String) (currentTime : Int) (_k : Int)
    (futureAccesses : Option (List DPT)) : Nat :=
  if algorithm = "LIFO" then pages.length - 1
  else if algorithm = "MRU" then max_element mruComp pages
  else if algorithm = "LRU-X" then min_element (lruComp currentTime) pages
  else if algorithm = "LFU" then min_element lfuComp pages
  else if algorithm = "OPT-lookahead-X" ∧ futureAccesses.isSome then
    max_element (optComp (buildFutureAccessMap (futureAccesses.getD []))) pages
  else if algorithm = "WS" then min_element (wsComp currentTime) pages
  else pages.length

/-- The function `replacePage`. -/
def replacePage (process : Process) (algorithm : String) (currentTime : Int) (k : Int)
    (futureAccesses : Option (List DPT)) : Process :=
  if process.pages.isEmpty then process
  else
    let pageIt := victimIt process.pages algorithm currentTime k futureAccesses
    if pageIt ≠ process.pages.length then
      { process with pages := process.pages.eraseIdx pageIt }
    else process

/-! ## Access path (main.cpp lines 119-155) -/

/-- The page built at line 124. -/
def newPage (process : Process) (pageNumber currentTime : Int) : Page :=
  { processID := process.id, frameID := -1, pageNumber := pageNumber, frequency := 1,
    accessTime := currentTime, kthAccessTime := currentTime }

/-- The function `pageFaultHandler`. -/
def pageFaultHandler (process : Process) (pageNumber currentTime : Int) (algorithm : String)
    (k : Int) (futureAccesses : Option (List DPT)) : Process :=
  let process1 :=
    if process.pages.length ≥ sizeCast process.size then
      replacePage process algorithm currentTime k futureAccesses
    else process
  { process1 with
    pages := process1.pages ++ [newPage process1 pageNumber currentTime]
    faultCount := process1.faultCount + 1 }

/-- The hit branch of `accessPage` (lines 136-143), `it` being the iterator found. -/
def hitUpdate (process : Process) (it : Nat) (currentTime : Int) : Process :=
  let process1 : Process :=
    { process with
      pages := process.pages.modify
        (fun pg => { pg with accessTime := currentTime, frequency := pg.frequency + 1 }) it }
  let process2 : Process :=
    if process1.pages.length < process1.minWorkset then
      { process1 with minWorkset := process1.pages.length }
    else process1
  if process2.pages.length > process2.maxWorkset then
    { process2 with maxWorkset := process2.pages.length }
  else process2

/-- The function `accessPage`; `pageFaultHandler` is called with its default
arguments `k = 1` and `futureAccesses = nullptr`. -/
def accessPage (process : Process) (pageNumber currentTime : Int) (algorithm : String) :
    Process :=
  let it := process.pages.findIdx (fun pg => pg.pageNumber == pageNumber)
  if it = process.pages.length then
    pageFaultHandler process pageNumber currentTime algorithm 1 none
  else hitUpdate process it currentTime

/-- One iteration of the loop of `runSimulation`; `none` when `line.processID`
does not index the process table. -/
def runSimulationStep (algorithm : String) (processes : List Process) (line : DPT) :
    Option (List Process) :=
  if line.processID < 0 then none
  else
    match processes[line.processID.toNat]? with
    | none => none
    | some proc =>
      if !proc.isFinished then
        some (processes.set line.processID.toNat
          (accessPage proc line.pageNumber line.time algorithm))
      else some processes

/-- The function `runSimulation` over an explicit process table and trace. -/
def runSimulation (algorithm : String) (processes : List Process) (dptEntries : List DPT) :
    Option (List Process) :=
  dptEntries.foldlM (runSimulationStep algorithm) processes

/-- The accesses of a trace applied in order to one process by `accessPage`:
what the loop of `runSimulation` does to a single unfinished process. -/
def replay (algorithm : String) (process : Process) (trace : List DPT) : Process :=
  trace.foldl (fun p line => accessPage p line.pageNumber line.time algorithm) process

/-- The process record pushed by `readFile` (line 102). -/
def initProcess (id size : Int) : Process :=
  { id := id, size := size, isFinished := false, faultCount := 0, minWorkset := SIZE_MAX,
    maxWorkset := 0, pages := [], historyPages := [] }

/-- The six names accepted by `main` (line 387). -/
def allAlgorithms : List String :=
  ["LIFO", "MRU", "LRU-X", "LFU", "OPT-lookahead-X", "WS"]

/-! ## Helpers used to state the properties -/

/-- A page number is resident when some page of the resident set carries it. -/
def isResident (process : Process) (pageNumber : Int) : Prop :=
  ∃ pg ∈ process.pages, pg.pageNumber = pageNumber

instance (process : Process) (pageNumber : Int) : Decidable (isResident process pageNumber) := by
  unfold isResident; infer_instance

/-- Number of accesses of a trace whose page is not resident at the moment of the
access, the process evolving by `accessPage`. -/
def missCount (algorithm : String) : Process → List DPT → Nat
  | _, [] => 0
  | p, line :: rest =>
    (if isResident p line.pageNumber then 0 else 1) +
      missCount algorithm (accessPage p line.pageNumber line.time algorithm) rest

/-- The five policy names for which `accessPage` reaches an evicting branch of
`replacePage`. -/
def evictingAlgorithms : List String := ["LIFO", "MRU", "LRU-X", "LFU", "WS"]

/-- A page with the given number, frequency and last-access time, for examples. -/
def mkPage (pageNumber frequency accessTime : Int) : Page :=
  { processID := 0, frameID := -1, pageNumber := pageNumber, frequency := frequency,
    accessTime := accessTime, kthAccessTime := accessTime }

/-- A trace of process 0 from (page number, time) pairs, for examples. -/
def mkTrace (l : List (Int × Int)) : List DPT :=
  l.map (fun x => { processID := 0, pageNumber := x.1, time := x.2 })

/-- A process record as pushed by `readFile`, with the given capacity and resident
pages, for examples. -/
def processWith (size : Int) (pages : List Page) : Process :=
  { initProcess 0 size with pages := pages }

/-- The body of `accessPage` with a future window handed to `pageFaultHandler`:
a miss is handled by `pageFaultHandler` under `OPT-lookahead-X` with `k = 1` and
`futureAccesses` pointing to the given window.  The source never makes this call
(`accessPage` leaves the window null); it is the driver needed to exercise the
OPT branch of `replacePage` over a trace. -/
def accessPageWithWindow (process : Process) (pageNumber currentTime : Int)
    (futureAccesses : List DPT) : Process :=
  let it := process.pages.findIdx (fun pg => pg.pageNumber == pageNumber)
  if it = process.pages.length then
    pageFaultHandler process pageNumber currentTime "OPT-lookahead-X" 1 (some futureAccesses)
  else hitUpdate process it currentTime

/-- Replay of a trace on one process where every access sees, as its future window,
the entire remaining trace after the current event. -/
def replayWithWindow : Process → List DPT → Process
  | p, [] => p
  | p, line :: rest =>
    replayWithWindow (accessPageWithWindow p line.pageNumber line.time rest) rest

/-! ## Disk scheduler (main.cpp lines 51-57, 242-254 and 457-552)

The functions `processFIFO`, `processSSTF` and `processSCAN` stand in the source inside
a comment block.  They are embedded as written, together with the function
`processDiskOperation` they call.  A counting semaphore is embedded as its value:
`sem_wait` on the value 0 does not return, and since the embedded functions are the
only code running, the call is then reported as `Outcome.blocked`.  A
`while (!diskQueue.empty())` loop is embedded with a fuel argument and reports
`Outcome.outOfFuel` when the fuel runs out before the queue is empty. -/

/-- The `DiskOperation` struct. -/
structure DiskOperation where
  processID : Int
  diskAddress : Int
  track : Int
  operationType : String
  seekTime : Int
deriving DecidableEq, Repr

/-- The globals `diskQueue` and `currentHeadPosition`, the values of the semaphores
`mutex_sub` and `mutex_main`, the locals `direction`, `totalSeekTime` and
`operationCount` of the `process*` functions, and the sequence `serviced` of the
operations for which `processDiskOperation` got past its wait. -/
structure DiskRun where
  diskQueue : List DiskOperation
  currentHeadPosition : Int
  direction : Bool
  totalSeekTime : Int
  operationCount : Int
  serviced : List DiskOperation
  mutex_sub : Nat
  mutex_main : Nat
deriving DecidableEq, Repr

/-- How a call ends: it returns with a state, or it blocks for ever in
`processDiskOperation(op)` on `sem_wait(&mutex_sub)` in the state reached at that
point, or the fuel of a loop is used up. -/
inductive Outcome where
  | returned (run : DiskRun)
  | blocked (run : DiskRun) (op : DiskOperation)
  | outOfFuel
deriving DecidableEq, Repr

/-- Sequencing: the statements `next` run only when the first part returned. -/
def Outcome.andThen (first : Outcome) (next : DiskRun → Outcome) : Outcome :=
  match first with
  | Outcome.returned run => next run
  | Outcome.blocked run op => Outcome.blocked run op
  | Outcome.outOfFuel => Outcome.outOfFuel

/-- The state with which a call returned, if it returned. -/
def Outcome.returnedRun (outcome : Outcome) : Option DiskRun :=
  match outcome with
  | Outcome.returned run => some run
  | Outcome.blocked _ _ => none
  | Outcome.outOfFuel => none

/-- The function `abs` on `int`. -/
def intAbs (x : Int) : Int := if x < 0 then -x else x

/-- State at the entry of a `process*` function: the locals are initialised
(`direction = true`, both counters 0), nothing has been serviced, and `mutex_sub` has
the given value.  After `initSemaphores` (lines 106-109) that value is 0, and no
statement of the source posts `mutex_sub`. -/
def startRun (diskQueue : List DiskOperation) (currentHeadPosition : Int) (mutex_sub : Nat) :
    DiskRun :=
  { diskQueue := diskQueue, currentHeadPosition := currentHeadPosition, direction := true,
    totalSeekTime := 0, operationCount := 0, serviced := [], mutex_sub := mutex_sub,
    mutex_main := 0 }

/-- The function `processDiskOperation` (lines 242-254): `sem_wait(&mutex_sub)`, the
output for the operation, `sem_post(&mutex_main)`. -/
def processDiskOperation (run : DiskRun) (op : DiskOperation) : Outcome :=
  if run.mutex_sub = 0 then Outcome.blocked run op
  else
    Outcome.returned
      { run with
        mutex_sub := run.mutex_sub - 1
        serviced := run.serviced ++ [op]
        mutex_main := run.mutex_main + 1 }

/-- The statements shared by the three loops for one operation `op`: compute
`seekTime`, add it to `totalSeekTime`, store it in `op`, call
`processDiskOperation(op)`, then move the head to `op.diskAddress` and count the
operation.  The erasure from the queue is left to `serviceAt`. -/
def serviceOp (run : DiskRun) (op : DiskOperation) : Outcome :=
  (processDiskOperation
      { run with
        totalSeekTime := run.totalSeekTime + intAbs (run.currentHeadPosition - op.diskAddress) }
      { op with seekTime := intAbs (run.currentHeadPosition - op.diskAddress) }).andThen
    fun run1 =>
      Outcome.returned
        { run1 with
          currentHeadPosition := op.diskAddress
          operationCount := run1.operationCount + 1 }

/-- Servicing of the operation `op` found at position `it` of the queue, with
`diskQueue.erase(it)` after the head has moved. -/
def serviceAt (run : DiskRun) (it : Nat) (op : DiskOperation) : Outcome :=
  (serviceOp run op).andThen
    fun run1 => Outcome.returned { run1 with diskQueue := run1.diskQueue.eraseIdx it }

/-- The loop `while (!diskQueue.empty()) body` with a bound on the number of
iterations. -/
def whileNonEmpty (body : DiskRun → Outcome) : Nat → DiskRun → Outcome
  | 0, run => if run.diskQueue.isEmpty then Outcome.returned run else Outcome.outOfFuel
  | fuel + 1, run =>
    if run.diskQueue.isEmpty then Outcome.returned run
    else (body run).andThen fun run1 => whileNonEmpty body fuel run1

/-- Body of the loop of `processFIFO` (lines 461-468): the front operation is
serviced and `diskQueue.begin()` erased. -/
def fifoBody (run : DiskRun) : Outcome :=
  match run.diskQueue with
  | [] => Outcome.returned run
  | op :: _ => serviceAt run 0 op

/-- The function `processFIFO`, from the given queue, head position and value of
`mutex_sub`. -/
def processFIFO (fuel : Nat) (diskQueue : List DiskOperation) (currentHeadPosition : Int)
    (mutex_sub : Nat) : Outcome :=
  whileNonEmpty fifoBody fuel (startRun diskQueue currentHeadPosition mutex_sub)

/-- Comparator of `processSSTF` (line 481). -/
def sstfComp (currentHeadPosition : Int) (a b : DiskOperation) : Bool :=
  decide (intAbs (currentHeadPosition - a.diskAddress) <
    intAbs (currentHeadPosition - b.diskAddress))

/-- Body of the loop of `processSSTF` (lines 480-490). -/
def sstfBody (run : DiskRun) : Outcome :=
  let it := min_element (sstfComp run.currentHeadPosition) run.diskQueue
  match run.diskQueue[it]? with
  | none => Outcome.returned run
  | some op => serviceAt run it op

/-- The function `processSSTF`, from the given queue, head position and value of
`mutex_sub`. -/
def processSSTF (fuel : Nat) (diskQueue : List DiskOperation) (currentHeadPosition : Int)
    (mutex_sub : Nat) : Outcome :=
  whileNonEmpty sstfBody fuel (startRun diskQueue currentHeadPosition mutex_sub)

/-- The call `std::sort` with comparator `a.diskAddress < b.diskAddress` (line 504).
`std::sort` leaves the order of equal addresses unspecified; the embedding keeps
their queue order. -/
def sortAscending (diskQueue : List DiskOperation) : List DiskOperation :=
  diskQueue.insertionSort (fun a b => a.diskAddress ≤ b.diskAddress)

/-- The call `std::sort` with comparator `a.diskAddress > b.diskAddress` (line 508). -/
def sortDescending (diskQueue : List DiskOperation) : List DiskOperation :=
  diskQueue.insertionSort (fun a b => a.diskAddress ≥ b.diskAddress)

/-- The loop of lines 522-531: while `it != end`, service `*it` and erase it; the
iterator returned by `erase` is the same position.  The second argument bounds the
number of iterations. -/
def scanUpLoop (it : Nat) : Nat → DiskRun → Outcome
  | 0, run => Outcome.returned run
  | fuel + 1, run =>
    if it ≠ run.diskQueue.length then
      match run.diskQueue[it]? with
      | none => Outcome.returned run
      | some op => (serviceAt run it op).andThen fun run1 => scanUpLoop it fuel run1
    else Outcome.returned run

/-- The loop of lines 534-544: `do { --it; service *it; erase(it); } while (it !=
begin)`, the argument being the value of `it` before the decrement; after the erasure
`it` keeps its position. -/
def scanDownLoop : Nat → DiskRun → Outcome
  | 0, run => Outcome.returned run
  | it + 1, run =>
    match run.diskQueue[it]? with
    | none => Outcome.returned run
    | some op =>
      if it ≠ 0 then (serviceAt run it op).andThen fun run1 => scanDownLoop it run1
      else serviceAt run it op

/-- The iterator `it` of lines 513-519 on the sorted queue: the first position with
`diskAddress >= currentHeadPosition` when moving up; when moving down, the `base()`
of the reverse iterator found by `find_if` over `rbegin()..rend()` for
`diskAddress <= currentHeadPosition`. -/
def scanIt (direction : Bool) (sorted : List DiskOperation) (currentHeadPosition : Int) :
    Nat :=
  if direction then
    sorted.findIdx (fun op => decide (op.diskAddress ≥ currentHeadPosition))
  else
    sorted.length -
      sorted.reverse.findIdx (fun op => decide (op.diskAddress ≤ currentHeadPosition))

/-- The assignment `direction = !direction` closing each branch of the body of
`processSCAN`, `direction` being the value at the start of the iteration. -/
def flipDirection (direction : Bool) (run : DiskRun) : Outcome :=
  Outcome.returned { run with direction := !direction }

/-- Body of the outer loop of `processSCAN` (lines 502-548). -/
def scanBody (run : DiskRun) : Outcome :=
  let sorted :=
    if run.direction then sortAscending run.diskQueue else sortDescending run.diskQueue
  let run1 : DiskRun := { run with diskQueue := sorted }
  let it := scanIt run.direction sorted run.currentHeadPosition
  if it ≠ sorted.length ∧ run.direction = true then
    (scanUpLoop it sorted.length run1).andThen (flipDirection run.direction)
  else if it ≠ 0 ∧ run.direction = false then
    (scanDownLoop it run1).andThen (flipDirection run.direction)
  else flipDirection run.direction run1

/-- The function `processSCAN`, from the given queue, head position and value of
`mutex_sub`. -/
def processSCAN (fuel : Nat) (diskQueue : List DiskOperation) (currentHeadPosition : Int)
    (mutex_sub : Nat) : Outcome :=
  whileNonEmpty scanBody fuel (startRun diskQueue currentHeadPosition mutex_sub)

/-- A read operation of process 0 at the given address, for examples. -/
def mkOp (diskAddress : Int) : DiskOperation :=
  { processID := 0, diskAddress := diskAddress, track := diskAddress, operationType := "read",
    seekTime := 0 }

/-- An operation with its `seekTime` field reset: the identity of an operation apart
from the field that servicing fills in. -/
def clearSeek (op : DiskOperation) : DiskOperation := { op with seekTime := 0 }

/-- Some unserviced operation lies ahead of the head in the current direction:
`diskAddress >= currentHeadPosition` when moving up, `<=` when moving down. -/
def aheadExists (run : DiskRun) : Prop :=
  if run.direction then ∃ op ∈ run.diskQueue, op.diskAddress ≥ run.currentHeadPosition
  else ∃ op ∈ run.diskQueue, op.diskAddress ≤ run.currentHeadPosition

/-- Accounting invariant of a run started on the queue `initial`: the operations
serviced so far followed by the pending ones are, up to `seekTime`, a permutation of
`initial`, `operationCount` counts the serviced ones, and `mutex_sub` is large enough
for every pending operation to get past its wait. -/
def accountsFor (initial : List DiskOperation) (run : DiskRun) : Prop :=
  List.Perm ((run.serviced ++ run.diskQueue).map clearSeek) (initial.map clearSeek) ∧
  run.operationCount + run.diskQueue.length = initial.length ∧
  run.diskQueue.length ≤ run.mutex_sub

instance (run : DiskRun) : Decidable (aheadExists run) := by
  unfold aheadExists; split <;> infer_instance

/-- Termination measure of the outer loop of `processSCAN`: twice the queue length,
plus one when nothing lies ahead of the head (the next iteration only flips the
direction). -/
def scanMeasure (run : DiskRun) : Nat :=
  2 * run.diskQueue.length + (if aheadExists run then 0 else 1)

/-- State in which `serviceAt run it op` returns when the wait of
`processDiskOperation` is passed. -/
def afterService (run : DiskRun) (it : Nat) (op : DiskOperation) : DiskRun :=
  { diskQueue := run.diskQueue.eraseIdx it
    currentHeadPosition := op.diskAddress
    direction := run.direction
    totalSeekTime := run.totalSeekTime + intAbs (run.currentHeadPosition - op.diskAddress)
    operationCount := run.operationCount + 1
    serviced := run.serviced ++
      [{ op with seekTime := intAbs (run.currentHeadPosition - op.diskAddress) }]
    mutex_sub := run.mutex_sub - 1
    mutex_main := run.mutex_main + 1 }

/-- Outcome of `serviceAt run it op` when `mutex_sub` is 0: the seek time is already
added to `totalSeekTime` and stored in the copy of `op`; the head, the queue and
`operationCount` are as before. -/
def blockedAt (run : DiskRun) (op : DiskOperation) : Outcome :=
  Outcome.blocked
    { run with
      totalSeekTime := run.totalSeekTime + intAbs (run.currentHeadPosition - op.diskAddress) }
    { op with seekTime := intAbs (run.currentHeadPosition - op.diskAddress) }

/-! ## Lemmas on the selection loops -/

theorem minElementLoop_lt {α : Type} (comp : α → α → Bool) :
    ∀ (xs : List α) (bi : Nat) (b : α) (i : Nat), bi < i →
      minElementLoop comp bi b i xs < i + xs.length := by
  intro xs
  induction xs with
  | nil => intro bi b i h; simpa [minElementLoop] using h
  | cons x xs ih =>
    intro bi b i h
    simp only [minElementLoop, List.length_cons]
    split
    · have := ih i x (i + 1) (Nat.lt_succ_self i); omega
    · have := ih bi b (i + 1) (by omega); omega

theorem maxElementLoop_lt {α : Type} (comp : α → α → Bool) :
    ∀ (xs : List α) (bi : Nat) (b : α) (i : Nat), bi < i →
      maxElementLoop comp bi b i xs < i + xs.length := by
  intro xs
  induction xs with
  | nil => intro bi b i h; simpa [maxElementLoop] using h
  | cons x xs ih =>
    intro bi b i h
    simp only [maxElementLoop, List.length_cons]
    split
    · have := ih i x (i + 1) (Nat.lt_succ_self i); omega
    · have := ih bi b (i + 1) (by omega); omega

theorem min_element_lt {α : Type} (comp : α → α → Bool) (xs : List α) (h : xs ≠ []) :
    min_element comp xs < xs.length := by
  cases xs with
  | nil => exact absurd rfl h
  | cons x xs =>
    have := minElementLoop_lt comp xs 0 x 1 (by omega)
    simp only [min_element, List.length_cons]; omega

theorem max_element_lt {α : Type} (comp : α → α → Bool) (xs : List α) (h : xs ≠ []) :
    max_element comp xs < xs.length := by
  cases xs with
  | nil => exact absurd rfl h
  | cons x xs =>
    have := maxElementLoop_lt comp xs 0 x 1 (by omega)
    simp only [max_element, List.length_cons]; omega

/-! ## Frame lemmas for the access path -/

theorem replacePage_frame (p : Process) (alg : String) (ct k : Int)
    (fut : Option (List DPT)) :
    replacePage p alg ct k fut = { p with pages := (replacePage p alg ct k fut).pages } := by
  unfold replacePage
  split
  · rfl
  · simp only; split <;> rfl

theorem replacePage_length_le (p : Process) (alg : String) (ct k : Int)
    (fut : Option (List DPT)) :
    (replacePage p alg ct k fut).pages.length ≤ p.pages.length := by
  unfold replacePage
  split
  · exact le_rfl
  · simp only; split
    · simp only [List.length_eraseIdx]; split <;> omega
    · exact le_rfl

theorem victimIt_lt (pages : List Page) (alg : String) (ct k : Int) (fut : Option (List DPT))
    (halg : alg ∈ evictingAlgorithms) (hne : pages ≠ []) :
    victimIt pages alg ct k fut < pages.length := by
  have hpos : 0 < pages.length := List.length_pos.mpr hne
  simp only [evictingAlgorithms, List.mem_cons, List.mem_singleton, List.not_mem_nil,
    or_false] at halg
  rcases halg with h | h | h | h | h <;> subst h <;> simp [victimIt]
  · omega
  · exact max_element_lt _ _ hne
  · exact min_element_lt _ _ hne
  · exact min_element_lt _ _ hne
  · exact min_element_lt _ _ hne

theorem replacePage_length_evicting (p : Process) (alg : String) (ct k : Int)
    (fut : Option (List DPT)) (halg : alg ∈ evictingAlgorithms) (hne : p.pages ≠ []) :
    (replacePage p alg ct k fut).pages.length = p.pages.length - 1 := by
  have hlt := victimIt_lt p.pages alg ct k fut halg hne
  unfold replacePage
  have hemp : p.pages.isEmpty = false := by
    cases hp : p.pages with
    | nil => exact absurd hp hne
    | cons _ _ => rfl
  simp only [hemp, Bool.false_eq_true, if_false]
  rw [if_pos (Nat.ne_of_lt hlt)]
  simp [List.length_eraseIdx, hlt]

theorem pageFaultHandler_size (p : Process) (pn t : Int) (alg : String) (k : Int)
    (fut : Option (List DPT)) : (pageFaultHandler p pn t alg k fut).size = p.size := by
  unfold pageFaultHandler
  simp only
  split
  · rw [replacePage_frame]
  · rfl

theorem pageFaultHandler_faultCount (p : Process) (pn t : Int) (alg : String) (k : Int)
    (fut : Option (List DPT)) :
    (pageFaultHandler p pn t alg k fut).faultCount = p.faultCount + 1 := by
  unfold pageFaultHandler
  simp only
  split
  · rw [replacePage_frame]
  · rfl

theorem hitUpdate_size (p : Process) (it : Nat) (t : Int) : (hitUpdate p it t).size = p.size := by
  unfold hitUpdate
  simp only
  split <;> split <;> rfl

theorem hitUpdate_faultCount (p : Process) (it : Nat) (t : Int) :
    (hitUpdate p it t).faultCount = p.faultCount := by
  unfold hitUpdate
  simp only
  split <;> split <;> rfl

theorem hitUpdate_pages (p : Process) (it : Nat) (t : Int) :
    (hitUpdate p it t).pages =
      p.pages.modify (fun pg => { pg with accessTime := t, frequency := pg.frequency + 1 }) it := by
  unfold hitUpdate
  simp only
  split <;> split <;> rfl

theorem accessPage_size (p : Process) (pn t : Int) (alg : String) :
    (accessPage p pn t alg).size = p.size := by
  unfold accessPage
  simp only
  split
  · exact pageFaultHandler_size _ _ _ _ _ _
  · exact hitUpdate_size _ _ _

theorem findIdx_eq_length_iff (p : Process) (pn : Int) :
    p.pages.findIdx (fun pg => pg.pageNumber == pn) = p.pages.length ↔ ¬ isResident p pn := by
  rw [List.findIdx_eq_length]
  unfold isResident
  constructor
  · rintro h ⟨pg, hmem, heq⟩
    have := h pg hmem
    simp [heq] at this
  · intro h pg hmem
    by_cases heq : pg.pageNumber = pn
    · exact absurd ⟨pg, hmem, heq⟩ h
    · simpa using heq

theorem sizeCast_le (x : Int) (hx : 0 ≤ x) : ((sizeCast x : Nat) : Int) ≤ x := by
  unfold sizeCast
  omega

/-- Capacity bound carried as an invariant: positive capacity and a resident
count within it. -/
theorem accessPage_capacity (alg : String) (halg : alg ∈ evictingAlgorithms) (p : Process)
    (pn t : Int) (h1 : 1 ≤ p.size) (hle : (p.pages.length : Int) ≤ p.size) :
    ((accessPage p pn t alg).pages.length : Int) ≤ p.size := by
  unfold accessPage
  simp only
  split
  · unfold pageFaultHandler
    simp only [List.length_append, List.length_singleton]
    split
    · by_cases hne : p.pages = []
      · have h0 := replacePage_length_le p alg t 1 none
        rw [hne] at h0
        simp only [List.length_nil, Nat.le_zero_eq] at h0
        rw [h0]; simpa using h1
      · have hlen := replacePage_length_evicting p alg t 1 none halg hne
        have hpos : 0 < p.pages.length := List.length_pos.mpr hne
        rw [hlen]; omega
    · rename_i hg
      have hc := sizeCast_le p.size (by omega)
      omega
  · rw [hitUpdate_pages, List.length_modify]; exact hle

theorem runSimulationStep_capacity (alg : String) (halg : alg ∈ evictingAlgorithms)
    (procs : List Process) (line : DPT)
    (hinv : ∀ p ∈ procs, 1 ≤ p.size ∧ (p.pages.length : Int) ≤ p.size)
    (hid : 0 ≤ line.processID ∧ line.processID < procs.length) :
    ∃ procs1, runSimulationStep alg procs line = some procs1 ∧ procs1.length = procs.length ∧
      ∀ p ∈ procs1, 1 ≤ p.size ∧ (p.pages.length : Int) ≤ p.size := by
  have hlt : line.processID.toNat < procs.length := by omega
  unfold runSimulationStep
  rw [if_neg (by omega), List.getElem?_eq_getElem hlt]
  simp only
  have hmem : procs[line.processID.toNat] ∈ procs := List.getElem_mem hlt
  split
  · refine ⟨_, rfl, by simp, ?_⟩
    intro p hp
    rcases List.mem_or_eq_of_mem_set hp with h | h
    · exact hinv p h
    · obtain ⟨h1, h2⟩ := hinv _ hmem
      subst h
      rw [accessPage_size]
      exact ⟨h1, accessPage_capacity alg halg _ _ _ h1 h2⟩
  · exact ⟨procs, rfl, rfl, hinv⟩

theorem runSimulation_capacity (alg : String) (halg : alg ∈ evictingAlgorithms) :
    ∀ (trace : List DPT) (procs : List Process),
      (∀ p ∈ procs, 1 ≤ p.size ∧ (p.pages.length : Int) ≤ p.size) →
      (∀ line ∈ trace, 0 ≤ line.processID ∧ line.processID < procs.length) →
      ∃ procs1, runSimulation alg procs trace = some procs1 ∧
        ∀ p ∈ procs1, 1 ≤ p.size ∧ (p.pages.length : Int) ≤ p.size := by
  intro trace
  induction trace with
  | nil => intro procs hinv _; exact ⟨procs, rfl, hinv⟩
  | cons line rest ih =>
    intro procs hinv hids
    obtain ⟨procs1, hstep, hlen, hinv1⟩ :=
      runSimulationStep_capacity alg halg procs line hinv (hids line (List.mem_cons_self _ _))
    obtain ⟨procs2, hrun, hinv2⟩ := ih procs1 hinv1 (by
      intro l hl
      rw [hlen]
      exact hids l (List.mem_cons_of_mem _ hl))
    refine ⟨procs2, ?_, hinv2⟩
    unfold runSimulation at hrun ⊢
    rw [List.foldlM_cons, hstep]
    exact hrun

/-! ## C1: capacity invariant -/

/-- C1 (code evaluated at the failing input): `OPT-lookahead-X` is one of the six
accepted policy names.  A process of capacity 1 holding page 1 satisfies
`pages.size() <= size`; after `accessPage` for page 2 under `OPT-lookahead-X` it
holds 2 pages with capacity 1.  `accessPage` calls `pageFaultHandler` without a
future window, so the OPT branch of `replacePage` is skipped and nothing is evicted.
The same fault keeps 1 page when `pageFaultHandler` is given a window, and when
`accessPage` runs under LIFO. -/
theorem capacity_invariant_fails_under_opt :
    "OPT-lookahead-X" ∈ allAlgorithms ∧
    ((processWith 1 [mkPage 1 1 0]).pages.length : Int) ≤
      (processWith 1 [mkPage 1 1 0]).size ∧
    (accessPage (processWith 1 [mkPage 1 1 0]) 2 1 "OPT-lookahead-X").pages.length = 2 ∧
    (accessPage (processWith 1 [mkPage 1 1 0]) 2 1 "OPT-lookahead-X").size = 1 ∧
    ¬ (((accessPage (processWith 1 [mkPage 1 1 0]) 2 1 "OPT-lookahead-X").pages.length : Int) ≤
        (accessPage (processWith 1 [mkPage 1 1 0]) 2 1 "OPT-lookahead-X").size) ∧
    (pageFaultHandler (processWith 1 [mkPage 1 1 0]) 2 1 "OPT-lookahead-X" 1
      (some (mkTrace [(1, 5)]))).pages.length = 1 ∧
    (accessPage (processWith 1 [mkPage 1 1 0]) 2 1 "LIFO").pages.length = 1 := by
  decide

/-- What `accessPage` does under `OPT-lookahead-X` on any miss: the resident pages
are kept and the new page is appended, whatever the capacity. -/
theorem accessPage_OPT_never_evicts (p : Process) (pn t : Int) (hmiss : ¬ isResident p pn) :
    (accessPage p pn t "OPT-lookahead-X").pages = p.pages ++ [newPage p pn t] := by
  have hidx := (findIdx_eq_length_iff p pn).mpr hmiss
  have hrep : replacePage p "OPT-lookahead-X" t 1 none = p := by
    unfold replacePage
    split
    · rfl
    · simp [victimIt]
  unfold accessPage
  simp only [hidx, if_true]
  unfold pageFaultHandler
  split
  · rw [hrep]
  · rfl

/-- What `accessPage` does with capacity 0: `replacePage` returns at its empty guard
and the page is pushed, so a process without resident pages holds one page after a
fault. -/
theorem accessPage_capacity_zero :
    (accessPage (initProcess 0 0) 1 0 "LIFO").pages.length = 1 ∧
    (accessPage (initProcess 0 0) 1 0 "LIFO").size = 0 := by
  decide

/-! ## C2: fault counting -/

theorem accessPage_faultCount (p : Process) (pn t : Int) (alg : String) :
    (accessPage p pn t alg).faultCount =
      p.faultCount + (if isResident p pn then 0 else 1) := by
  unfold accessPage
  simp only
  split
  · rename_i h
    rw [findIdx_eq_length_iff] at h
    rw [pageFaultHandler_faultCount, if_neg h]
  · rename_i h
    rw [findIdx_eq_length_iff, not_not] at h
    rw [hitUpdate_faultCount, if_pos h, add_zero]

theorem replay_faultCount (alg : String) :
    ∀ (trace : List DPT) (p : Process),
      (replay alg p trace).faultCount = p.faultCount + missCount alg p trace := by
  intro trace
  induction trace with
  | nil => intro p; simp [replay, missCount]
  | cons line rest ih =>
    intro p
    have h := ih (accessPage p line.pageNumber line.time alg)
    unfold replay at h ⊢
    rw [List.foldl_cons, h, accessPage_faultCount]
    simp only [missCount]
    split <;> push_cast <;> ring

/-- C2: for every policy name, process and trace, replaying the trace through
`accessPage` ends with `faultCount` equal to the initial `faultCount` plus the number
of accesses whose page number was not resident at the moment of the access; a single
access leaves `faultCount` unchanged on a hit and adds exactly 1 on a miss. -/
theorem fault_counting (alg : String) (p : Process) (trace : List DPT) :
    (replay alg p trace).faultCount = p.faultCount + missCount alg p trace ∧
    (∀ pn t : Int, (accessPage p pn t alg).faultCount =
      if isResident p pn then p.faultCount else p.faultCount + 1) := by
  refine ⟨replay_faultCount alg trace p, ?_⟩
  intro pn t
  rw [accessPage_faultCount]
  split <;> simp

/-! ## Selection by a key -/

theorem minElementLoop_key {α : Type} (f : α → Int) (comp : α → α → Bool)
    (hcomp : ∀ x b, comp x b = decide (f x < f b)) :
    ∀ (xs pre : List α) (bi : Nat) (b : α), pre[bi]? = some b →
      (∀ x ∈ pre, f b ≤ f x) →
      (∀ j x, j < bi → pre[j]? = some x → f b < f x) →
      ∃ y, (pre ++ xs)[minElementLoop comp bi b pre.length xs]? = some y ∧
        (∀ x ∈ pre ++ xs, f y ≤ f x) ∧
        (∀ j x, j < minElementLoop comp bi b pre.length xs →
          (pre ++ xs)[j]? = some x → f y < f x) := by
  intro xs
  induction xs with
  | nil =>
    intro pre bi b hb hmin hfirst
    refine ⟨b, ?_, ?_, ?_⟩
    · simpa [minElementLoop] using hb
    · simpa using hmin
    · simpa [minElementLoop] using hfirst
  | cons x xs ih =>
    intro pre bi b hb hmin hfirst
    have hbi : bi < pre.length := by
      by_contra hge
      rw [List.getElem?_eq_none (by omega)] at hb
      exact Option.noConfusion hb
    have happ : pre ++ x :: xs = (pre ++ [x]) ++ xs := by simp
    have hlen : (pre ++ [x]).length = pre.length + 1 := by simp
    simp only [minElementLoop, hcomp]
    by_cases hlt : f x < f b
    · simp only [hlt, decide_True, if_true]
      have h := ih (pre ++ [x]) pre.length x (by simp)
        (by
          intro z hz
          rcases List.mem_append.mp hz with hz | hz
          · have := hmin z hz; omega
          · simp only [List.mem_singleton] at hz; subst hz; exact le_rfl)
        (by
          intro j z hj hjz
          rw [List.getElem?_append_left hj] at hjz
          have := hmin z (List.getElem?_mem hjz); omega)
      rw [hlen] at h
      rw [happ]
      exact h
    · simp only [hlt, decide_False, Bool.false_eq_true, if_false]
      have h := ih (pre ++ [x]) bi b
        (by rw [List.getElem?_append_left hbi]; exact hb)
        (by
          intro z hz
          rcases List.mem_append.mp hz with hz | hz
          · exact hmin z hz
          · simp only [List.mem_singleton] at hz; subst hz; omega)
        (by
          intro j z hj hjz
          rw [List.getElem?_append_left (by omega)] at hjz
          exact hfirst j z hj hjz)
      rw [hlen] at h
      rw [happ]
      exact h

theorem min_element_key {α : Type} (f : α → Int) (comp : α → α → Bool)
    (hcomp : ∀ x b, comp x b = decide (f x < f b)) (xs : List α) (hne : xs ≠ []) :
    ∃ y, xs[min_element comp xs]? = some y ∧ (∀ x ∈ xs, f y ≤ f x) ∧
      (∀ j x, j < min_element comp xs → xs[j]? = some x → f y < f x) := by
  cases xs with
  | nil => exact absurd rfl hne
  | cons x xs =>
    have h := minElementLoop_key f comp hcomp xs [x] 0 x rfl
      (by intro z hz; simp only [List.mem_singleton] at hz; subst hz; exact le_rfl)
      (by intro j z hj; omega)
    simpa [min_element] using h

theorem maxElementLoop_eq_minElementLoop {α : Type} (comp : α → α → Bool) :
    ∀ (xs : List α) (bi : Nat) (b : α) (i : Nat),
      maxElementLoop comp bi b i xs = minElementLoop (fun x y => comp y x) bi b i xs := by
  intro xs
  induction xs with
  | nil => intro bi b i; rfl
  | cons x xs ih =>
    intro bi b i
    simp only [maxElementLoop, minElementLoop, ih]

theorem max_element_eq_min_element {α : Type} (comp : α → α → Bool) (xs : List α) :
    max_element comp xs = min_element (fun x y => comp y x) xs := by
  cases xs with
  | nil => rfl
  | cons x xs => exact maxElementLoop_eq_minElementLoop comp xs 0 x 1

theorem replacePage_of_lt (p : Process) (alg : String) (ct k : Int) (fut : Option (List DPT))
    (hlt : victimIt p.pages alg ct k fut < p.pages.length) :
    replacePage p alg ct k fut =
      { p with pages := p.pages.eraseIdx (victimIt p.pages alg ct k fut) } := by
  have hemp : p.pages.isEmpty = false := by
    cases hp : p.pages with
    | nil => rw [hp] at hlt; exact absurd hlt (Nat.not_lt_zero _)
    | cons _ _ => rfl
  unfold replacePage
  simp only [hemp, Bool.false_eq_true, if_false]
  rw [if_pos (Nat.ne_of_lt hlt)]

/-! ## C3: MRU victim -/

/-- What the MRU branch does: on a non-empty resident set `replacePage` removes
exactly one page, the first one whose `accessTime` is the minimum over the resident
pages. -/
theorem replacePage_MRU_removes_min (p : Process) (ct k : Int) (fut : Option (List DPT))
    (hne : p.pages ≠ []) :
    ∃ i v, p.pages[i]? = some v ∧
      replacePage p "MRU" ct k fut = { p with pages := p.pages.eraseIdx i } ∧
      (∀ x ∈ p.pages, v.accessTime ≤ x.accessTime) ∧
      (∀ j x, j < i → p.pages[j]? = some x → v.accessTime < x.accessTime) := by
  have hv : victimIt p.pages "MRU" ct k fut = min_element (fun x y => mruComp y x) p.pages := by
    simp [victimIt, max_element_eq_min_element]
  obtain ⟨v, hget, hmin, hfirst⟩ :=
    min_element_key (fun pg : Page => pg.accessTime) (fun x y => mruComp y x)
      (by intro x b; simp [mruComp]) p.pages hne
  refine ⟨_, v, hget, ?_, hmin, hfirst⟩
  have hlt := victimIt_lt p.pages "MRU" ct k fut (by decide) hne
  rw [replacePage_of_lt p "MRU" ct k fut hlt, hv]

/-- C3 (code evaluated at the failing input): with resident pages 1 (accessTime 1)
and 2 (accessTime 5), `replacePage` under MRU removes page 1, whose accessTime is the
minimum, and keeps page 2, whose accessTime is the maximum. -/
theorem mru_evicts_least_recent :
    (replacePage (processWith 2 [mkPage 1 1 1, mkPage 2 1 5])
        "MRU" 6 1 none).pages = [mkPage 2 1 5] ∧
    (mkPage 1 1 1).accessTime < (mkPage 2 1 5).accessTime := by
  decide

/-! ## C4: OPT victim -/

/-- What the OPT branch does when a window is supplied: on a non-empty resident set
`replacePage` removes exactly one page, the first one whose earliest time in the
window (`INT_MAX` when absent) is the minimum over the resident pages. -/
theorem replacePage_OPT_removes_min (p : Process) (ct k : Int) (window : List DPT)
    (hne : p.pages ≠ []) :
    ∃ i v, p.pages[i]? = some v ∧
      replacePage p "OPT-lookahead-X" ct k (some window) =
        { p with pages := p.pages.eraseIdx i } ∧
      (∀ x ∈ p.pages, futureOf (buildFutureAccessMap window) v.pageNumber ≤
        futureOf (buildFutureAccessMap window) x.pageNumber) ∧
      (∀ j x, j < i → p.pages[j]? = some x →
        futureOf (buildFutureAccessMap window) v.pageNumber <
          futureOf (buildFutureAccessMap window) x.pageNumber) := by
  have hv : victimIt p.pages "OPT-lookahead-X" ct k (some window) =
      min_element (fun x y => optComp (buildFutureAccessMap window) y x) p.pages := by
    simp [victimIt, max_element_eq_min_element]
  obtain ⟨v, hget, hmin, hfirst⟩ :=
    min_element_key (fun pg : Page => futureOf (buildFutureAccessMap window) pg.pageNumber)
      (fun x y => optComp (buildFutureAccessMap window) y x)
      (by intro x b; simp [optComp]) p.pages hne
  have hlt : victimIt p.pages "OPT-lookahead-X" ct k (some window) < p.pages.length := by
    rw [hv]; exact min_element_lt _ _ hne
  refine ⟨_, v, hget, ?_, hmin, hfirst⟩
  rw [replacePage_of_lt p "OPT-lookahead-X" ct k (some window) hlt, hv]

/-- C4 (code evaluated at the failing input): resident pages 1 and 2, window holding
only an access to page 1 at time 7.  Page 2 is absent from the window (rank
`INT_MAX`), page 1 has rank 7; `replacePage` under OPT-lookahead-X removes page 1, the
page that is in the window, and keeps page 2. -/
theorem opt_evicts_nearest_use :
    (replacePage (processWith 2 [mkPage 1 1 1, mkPage 2 1 5])
        "OPT-lookahead-X" 6 1 (some (mkTrace [(1, 7)]))).pages = [mkPage 2 1 5] ∧
    futureOf (buildFutureAccessMap (mkTrace [(1, 7)])) 1 = 7 ∧
    futureOf (buildFutureAccessMap (mkTrace [(1, 7)])) 2 = INT_MAX := by
  decide

/-! ## Selection by a one-argument predicate (WS branch) -/

/-- What the hit branch does to the bounds: after a hit both bounds enclose the
resident count. -/
theorem accessPage_hit_bounds (p : Process) (pn t : Int) (alg : String)
    (hres : isResident p pn) :
    (accessPage p pn t alg).minWorkset ≤ (accessPage p pn t alg).pages.length ∧
    (accessPage p pn t alg).pages.length ≤ (accessPage p pn t alg).maxWorkset := by
  have hidx : ¬ (p.pages.findIdx (fun pg => pg.pageNumber == pn) = p.pages.length) := by
    rw [findIdx_eq_length_iff]; exact not_not.mpr hres
  unfold accessPage
  simp only [hidx, if_false]
  unfold hitUpdate
  dsimp only
  split_ifs <;> dsimp only at * <;> omega

/-- What the miss branch does to the bounds: `pageFaultHandler` leaves `minWorkset`
and `maxWorkset` as they were. -/
theorem pageFaultHandler_bounds (p : Process) (pn t : Int) (alg : String) (k : Int)
    (fut : Option (List DPT)) :
    (pageFaultHandler p pn t alg k fut).minWorkset = p.minWorkset ∧
    (pageFaultHandler p pn t alg k fut).maxWorkset = p.maxWorkset := by
  unfold pageFaultHandler
  simp only
  split
  · rw [replacePage_frame]; exact ⟨rfl, rfl⟩
  · exact ⟨rfl, rfl⟩

/-- C7 (code evaluated at the failing input): a process initialised as `readFile`
does, with capacity 2, after one `accessPage` (a fault on page 1 at time 0, policy
LIFO) has 1 resident page while `maxWorkset` is still 0 and `minWorkset` is still the
maximum `size_t`; neither `minWorkset <= pages.size()` nor
`pages.size() <= maxWorkset` holds. -/
theorem workset_bounds_not_updated_on_fault :
    (accessPage (initProcess 0 2) 1 0 "LIFO").pages.length = 1 ∧
    (accessPage (initProcess 0 2) 1 0 "LIFO").maxWorkset = 0 ∧
    (accessPage (initProcess 0 2) 1 0 "LIFO").minWorkset = SIZE_MAX ∧
    ¬ ((accessPage (initProcess 0 2) 1 0 "LIFO").minWorkset ≤
        (accessPage (initProcess 0 2) 1 0 "LIFO").pages.length) ∧
    ¬ ((accessPage (initProcess 0 2) 1 0 "LIFO").pages.length ≤
        (accessPage (initProcess 0 2) 1 0 "LIFO").maxWorkset) := by
  decide

/-! ## C8: OPT against the other policies -/

/-- C8 (code evaluated at the failing input): capacity 2, trace
(1,0),(2,1),(3,2),(1,3) replayed from an empty resident set.  With every fault handled
under OPT-lookahead-X and the whole remaining trace as window, the fault on page 3
removes page 1 (the page used next) and the run ends with 4 faults; the same trace
under LIFO ends with 3 faults. -/
theorem opt_full_window_not_optimal :
    (replayWithWindow (initProcess 0 2) (mkTrace [(1, 0), (2, 1), (3, 2), (1, 3)])).faultCount
      = 4 ∧
    (replay "LIFO" (initProcess 0 2) (mkTrace [(1, 0), (2, 1), (3, 2), (1, 3)])).faultCount
      = 3 ∧
    ((replayWithWindow (initProcess 0 2) (mkTrace [(1, 0), (2, 1), (3, 2)])).pages.map
      (fun pg => pg.pageNumber)) = [2, 3] := by
  decide

/-! ## C9: LIFO victim -/

theorem replacePage_LIFO (p : Process) (ct k : Int) (fut : Option (List DPT))
    (hne : p.pages ≠ []) :
    replacePage p "LIFO" ct k fut = { p with pages := p.pages.dropLast } := by
  have hlt := victimIt_lt p.pages "LIFO" ct k fut (by decide) hne
  rw [replacePage_of_lt p "LIFO" ct k fut hlt]
  have hv : victimIt p.pages "LIFO" ct k fut = p.pages.length - 1 := by simp [victimIt]
  have hpos : 0 < p.pages.length := List.length_pos.mpr hne
  rw [hv, ← List.dropLast_eq_eraseIdx (by omega)]

/-- C9: under LIFO, for every process whose resident set is non-empty and passes the
capacity test of `pageFaultHandler` (`pages.size() >= static_cast<size_t>(size)`), a
fault removes exactly the last element of `pages`, keeps the earlier pages unchanged
and in order, appends the new page and adds 1 to `faultCount`; so resident pages
[1, 2] become [1, 3] on a fault for 3.  Scenario: capacity 2, trace
(1,0),(2,1),(1,2),(3,3),(1,4) replayed by `accessPage` from an empty resident set ends
with `faultCount = 3` and resident page numbers exactly 1, 3. -/
theorem lifo_victim :
    (∀ (p : Process) (pn t k : Int) (fut : Option (List DPT)),
      p.pages ≠ [] → sizeCast p.size ≤ p.pages.length →
      pageFaultHandler p pn t "LIFO" k fut =
        { p with
          pages := p.pages.dropLast ++ [newPage p pn t]
          faultCount := p.faultCount + 1 }) ∧
    ((pageFaultHandler (processWith 2 [mkPage 1 1 0, mkPage 2 1 1]) 3 2 "LIFO" 1 none).pages
      = [mkPage 1 1 0, mkPage 3 1 2]) ∧
    (replay "LIFO" (initProcess 0 2)
        (mkTrace [(1, 0), (2, 1), (1, 2), (3, 3), (1, 4)])).faultCount = 3 ∧
    ((replay "LIFO" (initProcess 0 2)
        (mkTrace [(1, 0), (2, 1), (1, 2), (3, 3), (1, 4)])).pages.map
      (fun pg => pg.pageNumber)) = [1, 3] := by
  refine ⟨?_, by decide, by decide, by decide⟩
  intro p pn t k fut hne hfull
  unfold pageFaultHandler
  simp only [ge_iff_le, hfull, if_true]
  rw [replacePage_LIFO p t k fut hne]
  rfl

/-- C9 witness: the general statement applied to the full process [1, 2] of
capacity 2 on a fault for page 3. -/
theorem lifo_victim_witness :
    (processWith 2 [mkPage 1 1 0, mkPage 2 1 1]).pages ≠ [] ∧
    sizeCast (processWith 2 [mkPage 1 1 0, mkPage 2 1 1]).size ≤
      (processWith 2 [mkPage 1 1 0, mkPage 2 1 1]).pages.length ∧
    pageFaultHandler (processWith 2 [mkPage 1 1 0, mkPage 2 1 1]) 3 2 "LIFO" 1 none =
      { processWith 2 [mkPage 1 1 0, mkPage 2 1 1] with
        pages := (processWith 2 [mkPage 1 1 0, mkPage 2 1 1]).pages.dropLast ++
          [newPage (processWith 2 [mkPage 1 1 0, mkPage 2 1 1]) 3 2]
        faultCount := (processWith 2 [mkPage 1 1 0, mkPage 2 1 1]).faultCount + 1 } :=
  ⟨by decide, by decide,
    lifo_victim.1 (processWith 2 [mkPage 1 1 0, mkPage 2 1 1]) 3 2 1 none
      (by decide) (by decide)⟩

/-! ## C10: LFU victim -/

/-- C10: under LFU, for every process with a non-empty resident set, `replacePage`
removes exactly one page (index `i`); that page has the minimum frequency over all
resident pages, and every page before it in `pages` has a strictly larger frequency,
so it is the earliest-inserted page of minimum frequency.  Scenario: frequencies
1:3, 2:1, 3:2 evict page 2. -/
theorem lfu_victim :
    (∀ (p : Process) (ct k : Int) (fut : Option (List DPT)), p.pages ≠ [] →
      ∃ i v, p.pages[i]? = some v ∧
        replacePage p "LFU" ct k fut = { p with pages := p.pages.eraseIdx i } ∧
        (replacePage p "LFU" ct k fut).pages.length + 1 = p.pages.length ∧
        (∀ x ∈ p.pages, v.frequency ≤ x.frequency) ∧
        (∀ j x, j < i → p.pages[j]? = some x → v.frequency < x.frequency)) ∧
    ((replacePage (processWith 3 [mkPage 1 3 0, mkPage 2 1 1, mkPage 3 2 2])
        "LFU" 3 1 none).pages = [mkPage 1 3 0, mkPage 3 2 2]) := by
  refine ⟨?_, by decide⟩
  intro p ct k fut hne
  have hv : victimIt p.pages "LFU" ct k fut = min_element lfuComp p.pages := by
    simp [victimIt]
  obtain ⟨v, hget, hmin, hfirst⟩ :=
    min_element_key (fun pg : Page => pg.frequency) lfuComp (by intro x b; rfl) p.pages hne
  have hlt := victimIt_lt p.pages "LFU" ct k fut (by decide) hne
  have hlen := replacePage_length_evicting p "LFU" ct k fut (by decide) hne
  have hpos : 0 < p.pages.length := List.length_pos.mpr hne
  refine ⟨_, v, hget, ?_, by omega, hmin, hfirst⟩
  rw [replacePage_of_lt p "LFU" ct k fut hlt, hv]

/-- C10 witness: the general statement applied to resident pages with frequencies
3, 1, 2. -/
theorem lfu_victim_witness :
    (processWith 3 [mkPage 1 3 0, mkPage 2 1 1, mkPage 3 2 2]).pages ≠ [] ∧
    ∃ i v, (processWith 3 [mkPage 1 3 0, mkPage 2 1 1, mkPage 3 2 2]).pages[i]? = some v ∧
      replacePage (processWith 3 [mkPage 1 3 0, mkPage 2 1 1, mkPage 3 2 2]) "LFU" 3 1 none =
        { processWith 3 [mkPage 1 3 0, mkPage 2 1 1, mkPage 3 2 2] with
          pages := (processWith 3 [mkPage 1 3 0, mkPage 2 1 1, mkPage 3 2 2]).pages.eraseIdx i } ∧
      (replacePage (processWith 3 [mkPage 1 3 0, mkPage 2 1 1, mkPage 3 2 2])
        "LFU" 3 1 none).pages.length + 1 =
        (processWith 3 [mkPage 1 3 0, mkPage 2 1 1, mkPage 3 2 2]).pages.length ∧
      (∀ x ∈ (processWith 3 [mkPage 1 3 0, mkPage 2 1 1, mkPage 3 2 2]).pages,
        v.frequency ≤ x.frequency) ∧
      (∀ j x, j < i →
        (processWith 3 [mkPage 1 3 0, mkPage 2 1 1, mkPage 3 2 2]).pages[j]? = some x →
        v.frequency < x.frequency) :=
  ⟨by decide,
    lfu_victim.1 (processWith 3 [mkPage 1 3 0, mkPage 2 1 1, mkPage 3 2 2]) 3 1 none
      (by decide)⟩

/-! ## C11: bounded-history LRU victim -/

/-- C11: under LRU-X, for every process with a non-empty resident set, every
`currentTime` and every `k`, `replacePage` removes exactly one page (index `i`), and
`currentTime - kthAccessTime` of that page is maximal over all resident pages (every
page before it has a strictly smaller value). -/
theorem lru_victim (p : Process) (ct k : Int) (fut : Option (List DPT)) (hne : p.pages ≠ []) :
    ∃ i v, p.pages[i]? = some v ∧
      replacePage p "LRU-X" ct k fut = { p with pages := p.pages.eraseIdx i } ∧
      (replacePage p "LRU-X" ct k fut).pages.length + 1 = p.pages.length ∧
      (∀ x ∈ p.pages, ct - x.kthAccessTime ≤ ct - v.kthAccessTime) ∧
      (∀ j x, j < i → p.pages[j]? = some x →
        ct - x.kthAccessTime < ct - v.kthAccessTime) := by
  have hv : victimIt p.pages "LRU-X" ct k fut = min_element (lruComp ct) p.pages := by
    simp [victimIt]
  obtain ⟨v, hget, hmin, hfirst⟩ :=
    min_element_key (fun pg : Page => -(ct - pg.kthAccessTime)) (lruComp ct)
      (by
        intro x b
        unfold lruComp
        exact decide_eq_decide.mpr (by constructor <;> intro h <;> dsimp only at * <;> omega))
      p.pages hne
  have hlt := victimIt_lt p.pages "LRU-X" ct k fut (by decide) hne
  have hlen := replacePage_length_evicting p "LRU-X" ct k fut (by decide) hne
  have hpos : 0 < p.pages.length := List.length_pos.mpr hne
  refine ⟨_, v, hget, ?_, by omega, ?_, ?_⟩
  · rw [replacePage_of_lt p "LRU-X" ct k fut hlt, hv]
  · intro x hx
    have := hmin x hx
    simp only at this
    omega
  · intro j x hj hjx
    have := hfirst j x hj hjx
    simp only at this
    omega

/-- C11 witness: the statement applied to resident pages whose `kthAccessTime` is 4
and 1 at currentTime 6. -/
theorem lru_victim_witness :
    (processWith 2 [mkPage 1 1 4, mkPage 2 1 1]).pages ≠ [] ∧
    ∃ i v, (processWith 2 [mkPage 1 1 4, mkPage 2 1 1]).pages[i]? = some v ∧
      replacePage (processWith 2 [mkPage 1 1 4, mkPage 2 1 1]) "LRU-X" 6 1 none =
        { processWith 2 [mkPage 1 1 4, mkPage 2 1 1] with
          pages := (processWith 2 [mkPage 1 1 4, mkPage 2 1 1]).pages.eraseIdx i } ∧
      (replacePage (processWith 2 [mkPage 1 1 4, mkPage 2 1 1]) "LRU-X" 6 1 none).pages.length
        + 1 = (processWith 2 [mkPage 1 1 4, mkPage 2 1 1]).pages.length ∧
      (∀ x ∈ (processWith 2 [mkPage 1 1 4, mkPage 2 1 1]).pages,
        6 - x.kthAccessTime ≤ 6 - v.kthAccessTime) ∧
      (∀ j x, j < i → (processWith 2 [mkPage 1 1 4, mkPage 2 1 1]).pages[j]? = some x →
        6 - x.kthAccessTime < 6 - v.kthAccessTime) :=
  ⟨by decide,
    lru_victim (processWith 2 [mkPage 1 1 4, mkPage 2 1 1]) 6 1 none (by decide)⟩

/-! ## C15: eviction on an empty resident set -/

/-- C15: for every policy name, recognised or not, every `currentTime`, `k` and future
window (null or not), `replacePage` applied to a process with an empty resident set
returns the process unchanged; the function is total, so no error is signalled. -/
theorem empty_eviction_noop (p : Process) (alg : String) (ct k : Int)
    (fut : Option (List DPT)) (hemp : p.pages = []) :
    replacePage p alg ct k fut = p := by
  unfold replacePage
  simp [hemp]

/-- C15 witness: the statement applied to a freshly initialised process and an
unrecognised policy name. -/
theorem empty_eviction_noop_witness :
    (initProcess 0 2).pages = [] ∧
    replacePage (initProcess 0 2) "CLOCK" 5 3 (some (mkTrace [(1, 7)])) = initProcess 0 2 :=
  ⟨rfl, empty_eviction_noop (initProcess 0 2) "CLOCK" 5 3 (some (mkTrace [(1, 7)])) rfl⟩

/-! ## C12 and C13: postconditions of `accessPage` -/

theorem findIdx_spec {α : Type} (q : α → Bool) :
    ∀ (xs : List α), (∃ x ∈ xs, q x = true) →
      ∃ v, xs[xs.findIdx q]? = some v ∧ q v = true ∧
        ∀ j x, j < xs.findIdx q → xs[j]? = some x → q x = false := by
  intro xs
  induction xs with
  | nil => rintro ⟨x, hx, _⟩; exact absurd hx (List.not_mem_nil x)
  | cons y ys ih =>
    intro hex
    by_cases hy : q y = true
    · refine ⟨y, by simp [List.findIdx_cons, hy], hy, ?_⟩
      intro j x hj
      simp [List.findIdx_cons, hy] at hj
    · have hyf : q y = false := by simpa using hy
      have hex1 : ∃ x ∈ ys, q x = true := by
        obtain ⟨x, hx, hqx⟩ := hex
        rcases List.mem_cons.mp hx with h | h
        · subst h; exact absurd hqx hy
        · exact ⟨x, h, hqx⟩
      obtain ⟨v, hget, hqv, hbefore⟩ := ih hex1
      refine ⟨v, by simpa [List.findIdx_cons, hyf] using hget, hqv, ?_⟩
      intro j x hj hjx
      simp only [List.findIdx_cons, hyf, cond_false] at hj
      cases j with
      | zero =>
        simp only [List.getElem?_cons_zero, Option.some.injEq] at hjx
        subst hjx; exact hyf
      | succ m =>
        rw [List.getElem?_cons_succ] at hjx
        exact hbefore m x (by omega) hjx

theorem modify_eq_set_of_getElem? {α : Type} (f : α → α) :
    ∀ (xs : List α) (n : Nat) (v : α), xs[n]? = some v → xs.modify f n = xs.set n (f v) := by
  intro xs
  induction xs with
  | nil => intro n v h; simp at h
  | cons y ys ih =>
    intro n v h
    cases n with
    | zero =>
      simp only [List.getElem?_cons_zero, Option.some.injEq] at h
      subst h; rfl
    | succ m =>
      rw [List.getElem?_cons_succ] at h
      simp only [List.modify_succ_cons, List.set_cons_succ, ih m v h]

theorem replacePage_pages_cases (p : Process) (alg : String) (ct k : Int)
    (fut : Option (List DPT)) :
    (replacePage p alg ct k fut).pages = p.pages ∨
      ∃ i, i < p.pages.length ∧ (replacePage p alg ct k fut).pages = p.pages.eraseIdx i := by
  by_cases hlt : victimIt p.pages alg ct k fut < p.pages.length
  · right
    exact ⟨_, hlt, by rw [replacePage_of_lt p alg ct k fut hlt]⟩
  · left
    unfold replacePage
    split
    · rfl
    · simp only
      split
      · rw [List.eraseIdx_of_length_le (by omega)]
      · rfl

/-- C12: for every policy name and every process in which `pageNumber` is not
resident, `accessPage` (a) keeps the resident pages or removes exactly one of them,
and removes none when the capacity test of line 120 fails
(`pages.size() < static_cast<size_t>(size)`, which for an `int` capacity larger than
the resident count is the case), (b) appends as last element a new page with that
page number, frequency 1 and `accessTime = kthAccessTime = currentTime`, and
(c) adds exactly 1 to `faultCount`; nothing else changes. -/
theorem miss_postcondition (alg : String) (p : Process) (pn t : Int)
    (hmiss : ¬ isResident p pn) :
    ∃ kept : List Page,
      (kept = p.pages ∨ ∃ i, i < p.pages.length ∧ kept = p.pages.eraseIdx i) ∧
      (p.pages.length < sizeCast p.size → kept = p.pages) ∧
      ((p.pages.length : Int) < p.size → p.size ≤ INT_MAX → kept = p.pages) ∧
      accessPage p pn t alg =
        { p with
          pages := kept ++ [{ processID := p.id, frameID := -1, pageNumber := pn,
                              frequency := 1, accessTime := t, kthAccessTime := t }]
          faultCount := p.faultCount + 1 } := by
  have hidx := (findIdx_eq_length_iff p pn).mpr hmiss
  have hcast : (p.pages.length : Int) < p.size → p.size ≤ INT_MAX →
      p.pages.length < sizeCast p.size := by
    intro h1 h2
    unfold INT_MAX at h2
    unfold sizeCast
    omega
  unfold accessPage
  simp only [hidx, if_true]
  unfold pageFaultHandler
  by_cases hg : p.pages.length ≥ sizeCast p.size
  · simp only [hg, if_true]
    refine ⟨(replacePage p alg t 1 none).pages, replacePage_pages_cases p alg t 1 none, ?_, ?_, ?_⟩
    · intro h; omega
    · intro h1 h2; have := hcast h1 h2; omega
    · rw [replacePage_frame]; rfl
  · simp only [hg, if_false]
    exact ⟨p.pages, Or.inl rfl, fun _ => rfl, fun _ _ => rfl, rfl⟩

/-- C12 witness: the statement applied to a full LFU process [1, 2] of capacity 2
and an access to the non-resident page 3. -/
theorem miss_postcondition_witness :
    ¬ isResident (processWith 2 [mkPage 1 1 0, mkPage 2 1 1]) 3 ∧
    ∃ kept : List Page,
      (kept = (processWith 2 [mkPage 1 1 0, mkPage 2 1 1]).pages ∨
        ∃ i, i < (processWith 2 [mkPage 1 1 0, mkPage 2 1 1]).pages.length ∧
          kept = (processWith 2 [mkPage 1 1 0, mkPage 2 1 1]).pages.eraseIdx i) ∧
      ((processWith 2 [mkPage 1 1 0, mkPage 2 1 1]).pages.length <
        sizeCast (processWith 2 [mkPage 1 1 0, mkPage 2 1 1]).size →
        kept = (processWith 2 [mkPage 1 1 0, mkPage 2 1 1]).pages) ∧
      (((processWith 2 [mkPage 1 1 0, mkPage 2 1 1]).pages.length : Int) <
        (processWith 2 [mkPage 1 1 0, mkPage 2 1 1]).size →
        (processWith 2 [mkPage 1 1 0, mkPage 2 1 1]).size ≤ INT_MAX →
        kept = (processWith 2 [mkPage 1 1 0, mkPage 2 1 1]).pages) ∧
      accessPage (processWith 2 [mkPage 1 1 0, mkPage 2 1 1]) 3 2 "LFU" =
        { processWith 2 [mkPage 1 1 0, mkPage 2 1 1] with
          pages := kept ++ [{ processID := (processWith 2 [mkPage 1 1 0, mkPage 2 1 1]).id,
                              frameID := -1, pageNumber := 3, frequency := 1,
                              accessTime := 2, kthAccessTime := 2 }]
          faultCount := (processWith 2 [mkPage 1 1 0, mkPage 2 1 1]).faultCount + 1 } :=
  ⟨by decide,
    miss_postcondition "LFU" (processWith 2 [mkPage 1 1 0, mkPage 2 1 1]) 3 2 (by decide)⟩

/-- C13: for every policy name and every process in which `pageNumber` is resident,
`accessPage` adds 1 to the frequency of the first resident page with that number
(index `i`) and sets its `accessTime` to `currentTime`, leaves every other page, the
order and number of pages and `faultCount` unchanged, and sets `minWorkset` to
`min(minWorkset, pages.size())` and `maxWorkset` to `max(maxWorkset, pages.size())`. -/
theorem hit_postcondition (alg : String) (p : Process) (pn t : Int)
    (hhit : isResident p pn) :
    ∃ i v, p.pages[i]? = some v ∧ v.pageNumber = pn ∧
      (∀ j x, j < i → p.pages[j]? = some x → x.pageNumber ≠ pn) ∧
      accessPage p pn t alg =
        { p with
          pages := p.pages.set i { v with accessTime := t, frequency := v.frequency + 1 }
          minWorkset := min p.minWorkset p.pages.length
          maxWorkset := max p.maxWorkset p.pages.length } := by
  have hidx : ¬ (p.pages.findIdx (fun pg => pg.pageNumber == pn) = p.pages.length) := by
    rw [findIdx_eq_length_iff]; exact not_not.mpr hhit
  obtain ⟨v, hget, hqv, hbefore⟩ :=
    findIdx_spec (fun pg : Page => pg.pageNumber == pn) p.pages (by
      obtain ⟨x, hx, hxn⟩ := hhit
      exact ⟨x, hx, by simpa using hxn⟩)
  refine ⟨_, v, hget, by simpa using hqv, ?_, ?_⟩
  · intro j x hj hjx
    have := hbefore j x hj hjx
    simpa using this
  · unfold accessPage
    simp only [hidx, if_false]
    unfold hitUpdate
    rw [modify_eq_set_of_getElem? _ p.pages _ v hget]
    simp only [List.length_set]
    cases p with
    | mk id size fin fc mn mx pages hist =>
      dsimp only
      have hmin : min mn pages.length = if pages.length < mn then pages.length else mn := by
        rw [Nat.min_def]; split_ifs <;> omega
      have hmax : max mx pages.length = if pages.length > mx then pages.length else mx := by
        rw [Nat.max_def]; split_ifs <;> omega
      rw [hmin, hmax]
      split_ifs <;> simp only [List.length_set] at * <;> first | rfl | omega

/-- C13 witness: the statement applied to resident pages [1, 2] and an access to
page 2. -/
theorem hit_postcondition_witness :
    isResident (processWith 2 [mkPage 1 1 0, mkPage 2 1 1]) 2 ∧
    ∃ i v, (processWith 2 [mkPage 1 1 0, mkPage 2 1 1]).pages[i]? = some v ∧
      v.pageNumber = 2 ∧
      (∀ j x, j < i → (processWith 2 [mkPage 1 1 0, mkPage 2 1 1]).pages[j]? = some x →
        x.pageNumber ≠ 2) ∧
      accessPage (processWith 2 [mkPage 1 1 0, mkPage 2 1 1]) 2 5 "MRU" =
        { processWith 2 [mkPage 1 1 0, mkPage 2 1 1] with
          pages := (processWith 2 [mkPage 1 1 0, mkPage 2 1 1]).pages.set i
            { v with accessTime := 5, frequency := v.frequency + 1 }
          minWorkset := min (processWith 2 [mkPage 1 1 0, mkPage 2 1 1]).minWorkset
            (processWith 2 [mkPage 1 1 0, mkPage 2 1 1]).pages.length
          maxWorkset := max (processWith 2 [mkPage 1 1 0, mkPage 2 1 1]).maxWorkset
            (processWith 2 [mkPage 1 1 0, mkPage 2 1 1]).pages.length } :=
  ⟨by decide,
    hit_postcondition "MRU" (processWith 2 [mkPage 1 1 0, mkPage 2 1 1]) 2 5 (by decide)⟩

/-! ## C20: LRU-X with `k = 1` -/

/-- What the hit branch does to `kthAccessTime`: the list of `kthAccessTime` values of
the resident pages is the same before and after a hit, so under LRU-X the rank of a
page is fixed when the page is inserted. -/
theorem hitUpdate_kthAccessTime (p : Process) (it : Nat) (t : Int) :
    (hitUpdate p it t).pages.map (fun pg => pg.kthAccessTime) =
      p.pages.map (fun pg => pg.kthAccessTime) := by
  rw [hitUpdate_pages]
  generalize p.pages = xs
  induction xs generalizing it with
  | nil => cases it <;> rfl
  | cons y ys ih =>
    cases it with
    | zero => rfl
    | succ m => simp only [List.modify_succ_cons, List.map_cons, ih m]

/-- C20 (code evaluated at the failing input): capacity 2, trace
(1,0),(2,1),(1,2),(3,3) with strictly increasing times, replayed by `accessPage` under
LRU-X from an empty resident set.  Before the last event the resident pages are page 1
(last access 2, `kthAccessTime` 0) and page 2 (last access 1); the fault on page 3
evicts page 1, although page 2 has the smaller last-access time. -/
theorem lru_k1_evicts_first_inserted :
    (replay "LRU-X" (initProcess 0 2) (mkTrace [(1, 0), (2, 1), (1, 2)])).pages =
      [{ processID := 0, frameID := -1, pageNumber := 1, frequency := 2, accessTime := 2,
         kthAccessTime := 0 },
       { processID := 0, frameID := -1, pageNumber := 2, frequency := 1, accessTime := 1,
         kthAccessTime := 1 }] ∧
    ((replay "LRU-X" (initProcess 0 2) (mkTrace [(1, 0), (2, 1), (1, 2), (3, 3)])).pages.map
      (fun pg => pg.pageNumber)) = [2, 3] := by
  decide

/-! ## C14: routing of trace events -/

/-- C14 (as stated, refuted): `runSimulation` indexes the process table by
`line.processID` and skips finished processes.  In the table with ids [1, 0] the event
for process id 1 is applied to the second entry, whose id is 0, and the entry with id 1
is left untouched; and in a table whose only process (id 0) is flagged finished the
event for id 0 changes nothing, whereas `accessPage` would record a fault. -/
theorem routing_counterexample :
    (runSimulation "LIFO" [initProcess 1 2, initProcess 0 2]
        [{ processID := 1, pageNumber := 7, time := 0 }] =
      some [initProcess 1 2, accessPage (initProcess 0 2) 7 0 "LIFO"] ∧
      (initProcess 1 2).id = 1 ∧
      (accessPage (initProcess 0 2) 7 0 "LIFO").id = 0 ∧
      accessPage (initProcess 0 2) 7 0 "LIFO" ≠ initProcess 0 2) ∧
    (runSimulation "LIFO" [{ initProcess 0 2 with isFinished := true }]
        [{ processID := 0, pageNumber := 7, time := 0 }] =
      some [{ initProcess 0 2 with isFinished := true }] ∧
      accessPage { initProcess 0 2 with isFinished := true } 7 0 "LIFO" ≠
        { initProcess 0 2 with isFinished := true }) := by
  decide

/-- C14 (amended): for every process table in which the id of each process equals
its position, and every trace event whose `processID` is the id of some process in
the table, `runSimulation` on that event returns the table in which the process at
position `processID` (whose id is `processID`) is replaced by its image under
`accessPage` when it is not flagged finished, and the unchanged table when it is;
every other position of the table keeps its process. -/
theorem routing_by_position (alg : String) (procs : List Process) (line : DPT)
    (hpos : ∀ (i : Nat) (q : Process), procs[i]? = some q → q.id = (i : Int))
    (hex : ∃ q ∈ procs, q.id = line.processID) :
    ∃ proc, procs[line.processID.toNat]? = some proc ∧ proc.id = line.processID ∧
      runSimulation alg procs [line] =
        some (if proc.isFinished then procs
          else procs.set line.processID.toNat
            (accessPage proc line.pageNumber line.time alg)) ∧
      (∀ j, j ≠ line.processID.toNat →
        (procs.set line.processID.toNat
          (accessPage proc line.pageNumber line.time alg))[j]? = procs[j]?) := by
  obtain ⟨q, hq, hqid⟩ := hex
  obtain ⟨i, hi⟩ := List.mem_iff_getElem?.mp hq
  have hidx : line.processID = (i : Int) := by rw [← hqid]; exact hpos i q hi
  have hnat : line.processID.toNat = i := by omega
  refine ⟨q, by rw [hnat]; exact hi, hqid, ?_, ?_⟩
  · unfold runSimulation
    simp only [List.foldlM_cons, List.foldlM_nil, bind_pure]
    unfold runSimulationStep
    rw [if_neg (by omega), hnat, hi]
    cases hfin : q.isFinished <;> simp [hfin]
  · intro j hj
    rw [List.getElem?_set_ne (Ne.symm hj)]

/-- C14 witness: the amended statement applied to a two-entry table with ids 0 and 1
and an event for process 1. -/
theorem routing_by_position_witness :
    (∀ (i : Nat) (q : Process),
      [initProcess 0 2, initProcess 1 3][i]? = some q → q.id = (i : Int)) ∧
    (∃ q ∈ [initProcess 0 2, initProcess 1 3],
      q.id = ({ processID := 1, pageNumber := 7, time := 0 } : DPT).processID) ∧
    ∃ proc,
      [initProcess 0 2, initProcess 1 3][({ processID := 1, pageNumber := 7, time := 0 } :
        DPT).processID.toNat]? = some proc ∧
      proc.id = ({ processID := 1, pageNumber := 7, time := 0 } : DPT).processID ∧
      runSimulation "LFU" [initProcess 0 2, initProcess 1 3]
          [{ processID := 1, pageNumber := 7, time := 0 }] =
        some (if proc.isFinished then [initProcess 0 2, initProcess 1 3]
          else [initProcess 0 2, initProcess 1 3].set
            ({ processID := 1, pageNumber := 7, time := 0 } : DPT).processID.toNat
            (accessPage proc ({ processID := 1, pageNumber := 7, time := 0 } : DPT).pageNumber
              ({ processID := 1, pageNumber := 7, time := 0 } : DPT).time "LFU")) ∧
      (∀ j, j ≠ ({ processID := 1, pageNumber := 7, time := 0 } : DPT).processID.toNat →
        ([initProcess 0 2, initProcess 1 3].set
          ({ processID := 1, pageNumber := 7, time := 0 } : DPT).processID.toNat
          (accessPage proc ({ processID := 1, pageNumber := 7, time := 0 } : DPT).pageNumber
            ({ processID := 1, pageNumber := 7, time := 0 } : DPT).time "LFU"))[j]? =
          [initProcess 0 2, initProcess 1 3][j]?) :=
  have hpos : ∀ (i : Nat) (q : Process),
      [initProcess 0 2, initProcess 1 3][i]? = some q → q.id = (i : Int) := by
    intro i q h
    match i, h with
    | 0, h => simp only [List.getElem?_cons_zero, Option.some.injEq] at h; subst h; rfl
    | 1, h =>
      simp only [List.getElem?_cons_succ, List.getElem?_cons_zero, Option.some.injEq] at h
      subst h; rfl
    | n + 2, h => simp at h
  ⟨hpos, ⟨initProcess 1 3, by decide, rfl⟩,
    routing_by_position "LFU" [initProcess 0 2, initProcess 1 3]
      { processID := 1, pageNumber := 7, time := 0 } hpos ⟨initProcess 1 3, by decide, rfl⟩⟩

/-! ## C21: capacity invariant, restricted form -/

theorem pageFaultHandler_full (alg : String) (halg : alg ∈ evictingAlgorithms) (p : Process)
    (pn t : Int) (h1 : 1 ≤ p.size) (hfull : (p.pages.length : Int) = p.size) :
    ∃ i, i < p.pages.length ∧
      (pageFaultHandler p pn t alg 1 none).pages = p.pages.eraseIdx i ++ [newPage p pn t] := by
  have hne : p.pages ≠ [] := by
    intro h
    rw [h] at hfull
    simp only [List.length_nil, Nat.cast_zero] at hfull
    omega
  have hlt := victimIt_lt p.pages alg t 1 none halg hne
  have hc := sizeCast_le p.size (by omega)
  have hg : p.pages.length ≥ sizeCast p.size := by omega
  refine ⟨victimIt p.pages alg t 1 none, hlt, ?_⟩
  unfold pageFaultHandler
  simp only [hg, if_true]
  rw [replacePage_of_lt p alg t 1 none hlt]
  rfl

/-- C21: for every policy name among LIFO, MRU, LRU-X, LFU and WS, every process with
capacity `size >= 1` and `pages.size() <= size`, and every access, the process after
`accessPage` has `pages.size() <= size`; moreover, when the access is a fault and the
process is at full capacity (`pages.size() = size`), exactly one resident page is
erased before the new page is appended, so the resident count stays equal to
`size`. -/
theorem capacity_invariant_restricted (alg : String) (halg : alg ∈ evictingAlgorithms)
    (p : Process) (pn t : Int) (h1 : 1 ≤ p.size) (hle : (p.pages.length : Int) ≤ p.size) :
    ((accessPage p pn t alg).pages.length : Int) ≤ (accessPage p pn t alg).size ∧
    (¬ isResident p pn → (p.pages.length : Int) = p.size →
      (∃ i, i < p.pages.length ∧
        (accessPage p pn t alg).pages = p.pages.eraseIdx i ++ [newPage p pn t]) ∧
      ((accessPage p pn t alg).pages.length : Int) = p.size) := by
  constructor
  · rw [accessPage_size]
    exact accessPage_capacity alg halg p pn t h1 hle
  · intro hmiss hfull
    have hidx := (findIdx_eq_length_iff p pn).mpr hmiss
    have hacc : accessPage p pn t alg = pageFaultHandler p pn t alg 1 none := by
      unfold accessPage
      simp only [hidx, if_true]
    obtain ⟨i, hi, hpages⟩ := pageFaultHandler_full alg halg p pn t h1 hfull
    rw [hacc]
    refine ⟨⟨i, hi, hpages⟩, ?_⟩
    rw [hpages]
    simp only [List.length_append, List.length_eraseIdx, hi, if_true, List.length_singleton]
    omega

/-- C21 witness: the statement applied to the full WS process [1, 2] of capacity 2
and an access to the non-resident page 3 at time 2. -/
theorem capacity_invariant_restricted_witness :
    "WS" ∈ evictingAlgorithms ∧
    (1 ≤ (processWith 2 [mkPage 1 1 0, mkPage 2 1 1]).size ∧
      ((processWith 2 [mkPage 1 1 0, mkPage 2 1 1]).pages.length : Int) ≤
        (processWith 2 [mkPage 1 1 0, mkPage 2 1 1]).size) ∧
    (¬ isResident (processWith 2 [mkPage 1 1 0, mkPage 2 1 1]) 3 ∧
      ((processWith 2 [mkPage 1 1 0, mkPage 2 1 1]).pages.length : Int) =
        (processWith 2 [mkPage 1 1 0, mkPage 2 1 1]).size) ∧
    ((accessPage (processWith 2 [mkPage 1 1 0, mkPage 2 1 1]) 3 2 "WS").pages.length : Int) ≤
      (accessPage (processWith 2 [mkPage 1 1 0, mkPage 2 1 1]) 3 2 "WS").size ∧
    (∃ i, i < (processWith 2 [mkPage 1 1 0, mkPage 2 1 1]).pages.length ∧
      (accessPage (processWith 2 [mkPage 1 1 0, mkPage 2 1 1]) 3 2 "WS").pages =
        (processWith 2 [mkPage 1 1 0, mkPage 2 1 1]).pages.eraseIdx i ++
          [newPage (processWith 2 [mkPage 1 1 0, mkPage 2 1 1]) 3 2]) ∧
    ((accessPage (processWith 2 [mkPage 1 1 0, mkPage 2 1 1]) 3 2 "WS").pages.length : Int) =
      (processWith 2 [mkPage 1 1 0, mkPage 2 1 1]).size :=
  ⟨by decide, by decide, by decide,
    (capacity_invariant_restricted "WS" (by decide)
      (processWith 2 [mkPage 1 1 0, mkPage 2 1 1]) 3 2 (by decide) (by decide)).1,
    ((capacity_invariant_restricted "WS" (by decide)
      (processWith 2 [mkPage 1 1 0, mkPage 2 1 1]) 3 2 (by decide) (by decide)).2
      (by decide) (by decide)).1,
    ((capacity_invariant_restricted "WS" (by decide)
      (processWith 2 [mkPage 1 1 0, mkPage 2 1 1]) 3 2 (by decide) (by decide)).2
      (by decide) (by decide)).2⟩

/-! ## Lemmas on the disk loops -/

theorem perm_cons_eraseIdx {α : Type} :
    ∀ (xs : List α) (i : Nat) (v : α), xs[i]? = some v → List.Perm (v :: xs.eraseIdx i) xs := by
  intro xs
  induction xs with
  | nil => intro i v h; simp at h
  | cons y ys ih =>
    intro i v h
    cases i with
    | zero =>
      simp only [List.getElem?_cons_zero, Option.some.injEq] at h
      subst h
      exact List.Perm.refl _
    | succ m =>
      rw [List.getElem?_cons_succ] at h
      simp only [List.eraseIdx_cons_succ]
      exact (List.Perm.swap y v _).trans ((ih m v h).cons y)

theorem lt_length_of_getElem? {α : Type} {xs : List α} {i : Nat} {v : α}
    (h : xs[i]? = some v) : i < xs.length := by
  by_contra hge
  rw [List.getElem?_eq_none (by omega)] at h
  exact Option.noConfusion h

/-- With `mutex_sub` at 0 the call of `processDiskOperation` inside `serviceAt` never
gets past `sem_wait`. -/
theorem serviceAt_blocked (run : DiskRun) (it : Nat) (op : DiskOperation)
    (h : run.mutex_sub = 0) : serviceAt run it op = blockedAt run op := by
  unfold serviceAt serviceOp processDiskOperation blockedAt
  simp only [h, if_true]
  rfl

/-- With a positive `mutex_sub` the wait is passed and `serviceAt` returns. -/
theorem serviceAt_granted (run : DiskRun) (it : Nat) (op : DiskOperation)
    (h : run.mutex_sub ≠ 0) : serviceAt run it op = Outcome.returned (afterService run it op) := by
  unfold serviceAt serviceOp processDiskOperation afterService
  simp only [h, if_false]
  rfl

theorem accountsFor_start (initial : List DiskOperation) (head : Int) (permits : Nat)
    (hp : initial.length ≤ permits) :
    accountsFor initial (startRun initial head permits) := by
  unfold accountsFor startRun
  exact ⟨by simp, by simp, hp⟩

theorem accountsFor_service (initial : List DiskOperation) (run : DiskRun) (i : Nat)
    (op : DiskOperation) (hinv : accountsFor initial run) (hget : run.diskQueue[i]? = some op) :
    accountsFor initial (afterService run i op) := by
  obtain ⟨hperm, hcount, hsem⟩ := hinv
  have hlt := lt_length_of_getElem? hget
  have hp := perm_cons_eraseIdx run.diskQueue i op hget
  unfold accountsFor afterService
  refine ⟨?_, ?_, ?_⟩
  · refine List.Perm.trans ?_ hperm
    simp only [List.map_append, List.map_cons, List.map_nil, List.append_assoc,
      List.singleton_append]
    refine List.Perm.append_left _ ?_
    have hc : clearSeek { op with
        seekTime := intAbs (run.currentHeadPosition - op.diskAddress) } = clearSeek op := rfl
    rw [hc]
    exact (hp.map clearSeek)
  · simp only [List.length_eraseIdx, hlt, if_true]
    have hpos : 0 < run.diskQueue.length := by omega
    push_cast [Nat.cast_sub (Nat.succ_le_of_lt hpos)]
    omega
  · simp only [List.length_eraseIdx, hlt, if_true]
    omega

theorem afterService_length (run : DiskRun) (i : Nat) (op : DiskOperation)
    (hget : run.diskQueue[i]? = some op) :
    (afterService run i op).diskQueue.length = run.diskQueue.length - 1 := by
  have hlt := lt_length_of_getElem? hget
  simp [afterService, List.length_eraseIdx, hlt]

theorem accountsFor_reorder (initial : List DiskOperation) (run : DiskRun)
    (sorted : List DiskOperation) (dir : Bool) (hinv : accountsFor initial run)
    (hperm : List.Perm sorted run.diskQueue) :
    accountsFor initial { run with diskQueue := sorted, direction := dir } := by
  obtain ⟨hp, hcount, hsem⟩ := hinv
  unfold accountsFor
  refine ⟨?_, ?_, ?_⟩
  · refine List.Perm.trans ?_ hp
    exact ((List.Perm.append_left run.serviced hperm).map clearSeek)
  · simp only [hperm.length_eq]
    exact hcount
  · simp only [hperm.length_eq]
    exact hsem

theorem granted_of_accountsFor (initial : List DiskOperation) (run : DiskRun)
    (hinv : accountsFor initial run) (hne : run.diskQueue ≠ []) : run.mutex_sub ≠ 0 := by
  have hpos : 0 < run.diskQueue.length := List.length_pos.mpr hne
  have := hinv.2.2
  omega

theorem whileNonEmpty_terminates (body : DiskRun → Outcome) (measure : DiskRun → Nat)
    (inv : DiskRun → Prop)
    (hstep : ∀ run, inv run → run.diskQueue ≠ [] →
      ∃ r, body run = Outcome.returned r ∧ inv r ∧ measure r < measure run) :
    ∀ (fuel : Nat) (run : DiskRun), inv run → measure run ≤ fuel →
      ∃ r, whileNonEmpty body fuel run = Outcome.returned r ∧ r.diskQueue = [] ∧ inv r := by
  intro fuel
  induction fuel with
  | zero =>
    intro run hinv hm
    by_cases hemp : run.diskQueue = []
    · exact ⟨run, by simp [whileNonEmpty, hemp], hemp, hinv⟩
    · obtain ⟨_, _, _, hlt⟩ := hstep run hinv hemp
      omega
  | succ f ih =>
    intro run hinv hm
    by_cases hemp : run.diskQueue = []
    · exact ⟨run, by simp [whileNonEmpty, hemp], hemp, hinv⟩
    · obtain ⟨r1, hbody, hinv1, hlt⟩ := hstep run hinv hemp
      obtain ⟨r, hr, hre, hri⟩ := ih r1 hinv1 (by omega)
      refine ⟨r, ?_, hre, hri⟩
      have hne : run.diskQueue.isEmpty = false := by
        cases hq : run.diskQueue with
        | nil => exact absurd hq hemp
        | cons _ _ => rfl
      simp only [whileNonEmpty, hne, Bool.false_eq_true, if_false, hbody, Outcome.andThen]
      exact hr

/-- A loop whose body blocks, or returns in a state of the same kind, never returns:
with an invariant `inv` that excludes the empty queue, the outcome is never
`returned`. -/
theorem whileNonEmpty_never_returns (body : DiskRun → Outcome) (inv : DiskRun → Prop)
    (hne : ∀ run, inv run → run.diskQueue ≠ [])
    (hstep : ∀ run, inv run →
      (∃ r op, body run = Outcome.blocked r op) ∨ (∃ r, body run = Outcome.returned r ∧ inv r)) :
    ∀ (fuel : Nat) (run : DiskRun), inv run →
      (whileNonEmpty body fuel run).returnedRun = none := by
  intro fuel
  induction fuel with
  | zero =>
    intro run hinv
    have hq : run.diskQueue.isEmpty = false := by
      cases hq : run.diskQueue with
      | nil => exact absurd hq (hne run hinv)
      | cons _ _ => rfl
    simp [whileNonEmpty, hq, Outcome.returnedRun]
  | succ f ih =>
    intro run hinv
    have hq : run.diskQueue.isEmpty = false := by
      cases hq : run.diskQueue with
      | nil => exact absurd hq (hne run hinv)
      | cons _ _ => rfl
    simp only [whileNonEmpty, hq, Bool.false_eq_true, if_false]
    rcases hstep run hinv with ⟨r, op, hb⟩ | ⟨r, hb, hinv1⟩
    · rw [hb]; rfl
    · rw [hb]; exact ih r hinv1

/-! ## C17: SSTF selection -/

theorem sstfBody_spec (run : DiskRun) (hne : run.diskQueue ≠ []) :
    ∃ i op, run.diskQueue[i]? = some op ∧
      (∀ x ∈ run.diskQueue, intAbs (run.currentHeadPosition - op.diskAddress) ≤
        intAbs (run.currentHeadPosition - x.diskAddress)) ∧
      (∀ j x, j < i → run.diskQueue[j]? = some x →
        intAbs (run.currentHeadPosition - op.diskAddress) <
          intAbs (run.currentHeadPosition - x.diskAddress)) ∧
      sstfBody run = serviceAt run i op := by
  obtain ⟨op, hget, hmin, hfirst⟩ :=
    min_element_key (fun o : DiskOperation => intAbs (run.currentHeadPosition - o.diskAddress))
      (sstfComp run.currentHeadPosition) (by intro x b; rfl) run.diskQueue hne
  refine ⟨_, op, hget, hmin, hfirst, ?_⟩
  unfold sstfBody
  simp only [hget]

theorem fifoBody_step (initial : List DiskOperation) (run : DiskRun)
    (hinv : accountsFor initial run) (hne : run.diskQueue ≠ []) :
    ∃ r, fifoBody run = Outcome.returned r ∧ accountsFor initial r ∧
      r.diskQueue.length < run.diskQueue.length := by
  have hsem := granted_of_accountsFor initial run hinv hne
  have hpos : 0 < run.diskQueue.length := List.length_pos.mpr hne
  cases hq : run.diskQueue with
  | nil => exact absurd hq hne
  | cons op rest =>
    have hget : run.diskQueue[0]? = some op := by rw [hq]; simp
    refine ⟨afterService run 0 op, ?_, accountsFor_service initial run 0 op hinv hget, ?_⟩
    · unfold fifoBody
      rw [hq]
      exact serviceAt_granted run 0 op hsem
    · rw [afterService_length run 0 op hget, ← hq]
      omega

theorem sstfBody_step (initial : List DiskOperation) (run : DiskRun)
    (hinv : accountsFor initial run) (hne : run.diskQueue ≠ []) :
    ∃ r, sstfBody run = Outcome.returned r ∧ accountsFor initial r ∧
      r.diskQueue.length < run.diskQueue.length := by
  have hsem := granted_of_accountsFor initial run hinv hne
  have hpos : 0 < run.diskQueue.length := List.length_pos.mpr hne
  obtain ⟨i, op, hget, _, _, hbody⟩ := sstfBody_spec run hne
  refine ⟨afterService run i op, ?_, accountsFor_service initial run i op hinv hget, ?_⟩
  · rw [hbody]; exact serviceAt_granted run i op hsem
  · rw [afterService_length run i op hget]
    omega

theorem scanUpLoop_step (initial : List DiskOperation) (it : Nat) :
    ∀ (fuel : Nat) (run : DiskRun), accountsFor initial run →
      ∃ r, scanUpLoop it fuel run = Outcome.returned r ∧ accountsFor initial r ∧
        r.diskQueue.length ≤ run.diskQueue.length ∧
        (it < run.diskQueue.length → 0 < fuel →
          r.diskQueue.length < run.diskQueue.length) := by
  intro fuel
  induction fuel with
  | zero =>
    intro run hinv
    exact ⟨run, rfl, hinv, le_rfl, fun _ h => absurd h (Nat.lt_irrefl 0)⟩
  | succ f ih =>
    intro run hinv
    unfold scanUpLoop
    by_cases hit : it ≠ run.diskQueue.length
    · rw [if_pos hit]
      cases hget : run.diskQueue[it]? with
      | none =>
        refine ⟨run, rfl, hinv, le_rfl, ?_⟩
        intro hlt _
        rw [List.getElem?_eq_getElem hlt] at hget
        exact Option.noConfusion hget
      | some op =>
        have hlt := lt_length_of_getElem? hget
        have hsem := granted_of_accountsFor initial run hinv
          (List.ne_nil_of_length_pos (by omega))
        have hinv1 := accountsFor_service initial run it op hinv hget
        obtain ⟨r, hr, h1, h2, _⟩ := ih _ hinv1
        have hlen := afterService_length run it op hget
        refine ⟨r, ?_, h1, by omega, fun _ _ => by omega⟩
        simp only [serviceAt_granted run it op hsem, Outcome.andThen]
        exact hr
    · rw [if_neg hit]
      refine ⟨run, rfl, hinv, le_rfl, ?_⟩
      intro hlt _
      have : it = run.diskQueue.length := not_not.mp hit
      omega

theorem scanDownLoop_step (initial : List DiskOperation) :
    ∀ (it : Nat) (run : DiskRun), accountsFor initial run →
      ∃ r, scanDownLoop it run = Outcome.returned r ∧ accountsFor initial r ∧
        r.diskQueue.length ≤ run.diskQueue.length ∧
        (0 < it → it ≤ run.diskQueue.length →
          r.diskQueue.length < run.diskQueue.length) := by
  intro it
  induction it with
  | zero =>
    intro run hinv
    exact ⟨run, rfl, hinv, le_rfl, fun h _ => absurd h (Nat.lt_irrefl 0)⟩
  | succ m ih =>
    intro run hinv
    unfold scanDownLoop
    cases hget : run.diskQueue[m]? with
    | none =>
      refine ⟨run, rfl, hinv, le_rfl, ?_⟩
      intro _ hle
      rw [List.getElem?_eq_getElem (by omega)] at hget
      exact Option.noConfusion hget
    | some op =>
      have hlt := lt_length_of_getElem? hget
      have hsem := granted_of_accountsFor initial run hinv
        (List.ne_nil_of_length_pos (by omega))
      have hinv1 := accountsFor_service initial run m op hinv hget
      have hlen := afterService_length run m op hget
      by_cases hm : m ≠ 0
      · obtain ⟨r, hr, h1, h2, _⟩ := ih _ hinv1
        refine ⟨r, ?_, h1, by omega, fun _ _ => by omega⟩
        simp only [if_pos hm, serviceAt_granted run m op hsem, Outcome.andThen]
        exact hr
      · refine ⟨afterService run m op, ?_, hinv1, by omega, fun _ _ => by omega⟩
        simp only [if_neg hm, serviceAt_granted run m op hsem]

theorem scanMeasure_le (run : DiskRun) : scanMeasure run ≤ 2 * run.diskQueue.length + 1 := by
  unfold scanMeasure; split <;> omega

theorem scanMeasure_of_ahead (run : DiskRun) (h : aheadExists run) :
    scanMeasure run = 2 * run.diskQueue.length := by
  unfold scanMeasure; rw [if_pos h]; rfl

theorem scanMeasure_of_not_ahead (run : DiskRun) (h : ¬ aheadExists run) :
    scanMeasure run = 2 * run.diskQueue.length + 1 := by
  unfold scanMeasure; rw [if_neg h]

theorem accountsFor_direction (initial : List DiskOperation) (run : DiskRun) (dir : Bool)
    (h : accountsFor initial run) : accountsFor initial { run with direction := dir } := h

theorem scanBody_up (run : DiskRun) (hdir : run.direction = true) :
    scanBody run =
      if (sortAscending run.diskQueue).findIdx
          (fun op => decide (op.diskAddress ≥ run.currentHeadPosition)) ≠
          (sortAscending run.diskQueue).length then
        (scanUpLoop
            ((sortAscending run.diskQueue).findIdx
              (fun op => decide (op.diskAddress ≥ run.currentHeadPosition)))
            (sortAscending run.diskQueue).length
            { run with diskQueue := sortAscending run.diskQueue }).andThen (flipDirection true)
      else flipDirection true { run with diskQueue := sortAscending run.diskQueue } := by
  unfold scanBody scanIt
  simp only [hdir, if_true, and_true]
  split
  · rfl
  · simp

theorem scanBody_down (run : DiskRun) (hdir : run.direction = false) :
    scanBody run =
      if (sortDescending run.diskQueue).length -
          (sortDescending run.diskQueue).reverse.findIdx
            (fun op => decide (op.diskAddress ≤ run.currentHeadPosition)) ≠ 0 then
        (scanDownLoop
            ((sortDescending run.diskQueue).length -
              (sortDescending run.diskQueue).reverse.findIdx
                (fun op => decide (op.diskAddress ≤ run.currentHeadPosition)))
            { run with diskQueue := sortDescending run.diskQueue }).andThen
          (flipDirection false)
      else flipDirection false { run with diskQueue := sortDescending run.diskQueue } := by
  unfold scanBody scanIt
  simp [hdir]

theorem scanBody_step (initial : List DiskOperation) (run : DiskRun)
    (hinv : accountsFor initial run) (hne : run.diskQueue ≠ []) :
    ∃ r, scanBody run = Outcome.returned r ∧ accountsFor initial r ∧
      scanMeasure r < scanMeasure run := by
  have hpos : 0 < run.diskQueue.length := List.length_pos.mpr hne
  have hge0 : 2 * run.diskQueue.length ≤ scanMeasure run := by
    unfold scanMeasure; omega
  cases hdir : run.direction with
  | true =>
    have hperm : List.Perm (sortAscending run.diskQueue) run.diskQueue :=
      List.perm_insertionSort _ _
    have hlen := hperm.length_eq
    have hinv1 : accountsFor initial { run with diskQueue := sortAscending run.diskQueue } :=
      accountsFor_reorder initial run _ run.direction hinv hperm
    rw [scanBody_up run hdir]
    by_cases hahead : ∃ op ∈ run.diskQueue, op.diskAddress ≥ run.currentHeadPosition
    · obtain ⟨op, hop, hge⟩ := hahead
      have hlt : (sortAscending run.diskQueue).findIdx
          (fun op => decide (op.diskAddress ≥ run.currentHeadPosition)) <
          (sortAscending run.diskQueue).length :=
        List.findIdx_lt_length.mpr ⟨op, hperm.mem_iff.mpr hop, by simpa using hge⟩
      rw [if_pos (Nat.ne_of_lt hlt)]
      obtain ⟨r, hr, h1, _, h3⟩ :=
        scanUpLoop_step initial _ (sortAscending run.diskQueue).length _ hinv1
      have h3 := h3 hlt (by omega)
      refine ⟨{ r with direction := !true }, ?_, accountsFor_direction initial r _ h1, ?_⟩
      · rw [hr]; rfl
      · have hm := scanMeasure_le { r with direction := !true }
        dsimp only at hm h3 ⊢
        omega
    · have hnot : ¬ aheadExists run := by
        unfold aheadExists; rw [hdir]; simpa using hahead
      have hidx : (sortAscending run.diskQueue).findIdx
          (fun op => decide (op.diskAddress ≥ run.currentHeadPosition)) =
          (sortAscending run.diskQueue).length := by
        rw [List.findIdx_eq_length]
        intro x hx
        have hx1 := hperm.mem_iff.mp hx
        simp only [decide_eq_false_iff_not]
        intro hge
        exact hahead ⟨x, hx1, hge⟩
      rw [if_neg (not_not.mpr hidx)]
      refine ⟨{ run with diskQueue := sortAscending run.diskQueue, direction := !true }, rfl,
        accountsFor_reorder initial run _ _ hinv hperm, ?_⟩
      rw [scanMeasure_of_not_ahead run hnot, scanMeasure_of_ahead]
      · dsimp only; omega
      · unfold aheadExists
        dsimp only
        simp only [Bool.not_true, Bool.false_eq_true, if_false]
        obtain ⟨y, hy⟩ := List.exists_mem_of_ne_nil _ hne
        refine ⟨y, hperm.mem_iff.mpr hy, ?_⟩
        have : ¬ (y.diskAddress ≥ run.currentHeadPosition) := fun h => hahead ⟨y, hy, h⟩
        omega
  | false =>
    have hperm : List.Perm (sortDescending run.diskQueue) run.diskQueue :=
      List.perm_insertionSort _ _
    have hlen := hperm.length_eq
    have hinv1 : accountsFor initial { run with diskQueue := sortDescending run.diskQueue } :=
      accountsFor_reorder initial run _ run.direction hinv hperm
    rw [scanBody_down run hdir]
    by_cases hahead : ∃ op ∈ run.diskQueue, op.diskAddress ≤ run.currentHeadPosition
    · obtain ⟨op, hop, hle⟩ := hahead
      have hlt : (sortDescending run.diskQueue).reverse.findIdx
          (fun op => decide (op.diskAddress ≤ run.currentHeadPosition)) <
          (sortDescending run.diskQueue).reverse.length :=
        List.findIdx_lt_length.mpr
          ⟨op, List.mem_reverse.mpr (hperm.mem_iff.mpr hop), by simpa using hle⟩
      rw [List.length_reverse] at hlt
      rw [if_pos (by omega)]
      obtain ⟨r, hr, h1, _, h3⟩ := scanDownLoop_step initial
        ((sortDescending run.diskQueue).length -
          (sortDescending run.diskQueue).reverse.findIdx
            (fun op => decide (op.diskAddress ≤ run.currentHeadPosition)))
        { run with diskQueue := sortDescending run.diskQueue } hinv1
      have h3 := h3 (by omega) (by dsimp only; omega)
      refine ⟨{ r with direction := !false }, ?_, accountsFor_direction initial r _ h1, ?_⟩
      · rw [hr]; rfl
      · have hm := scanMeasure_le { r with direction := !false }
        dsimp only at hm h3 ⊢
        omega
    · have hnot : ¬ aheadExists run := by
        unfold aheadExists; rw [hdir]; simpa using hahead
      have hidx : (sortDescending run.diskQueue).reverse.findIdx
          (fun op => decide (op.diskAddress ≤ run.currentHeadPosition)) =
          (sortDescending run.diskQueue).reverse.length := by
        rw [List.findIdx_eq_length]
        intro x hx
        have hx1 := hperm.mem_iff.mp (List.mem_reverse.mp hx)
        simp only [decide_eq_false_iff_not]
        intro hle
        exact hahead ⟨x, hx1, hle⟩
      rw [List.length_reverse] at hidx
      rw [if_neg (by omega)]
      refine ⟨{ run with diskQueue := sortDescending run.diskQueue, direction := !false }, rfl,
        accountsFor_reorder initial run _ _ hinv hperm, ?_⟩
      rw [scanMeasure_of_not_ahead run hnot, scanMeasure_of_ahead]
      · dsimp only; omega
      · unfold aheadExists
        dsimp only
        simp only [Bool.not_false, if_true]
        obtain ⟨y, hy⟩ := List.exists_mem_of_ne_nil _ hne
        refine ⟨y, hperm.mem_iff.mpr hy, ?_⟩
        have : ¬ (y.diskAddress ≤ run.currentHeadPosition) := fun h => hahead ⟨y, hy, h⟩
        omega

/-- The queue discipline of the three loops when every wait is passed: started with
`mutex_sub` at least the queue length and with enough iterations, each of
`processFIFO`, `processSSTF` and `processSCAN` returns with an empty queue, the
serviced operations are, up to `seekTime`, a permutation of the initial queue, and
`operationCount` equals the initial queue length. -/
theorem exactly_once_when_granted (diskQueue : List DiskOperation) (head : Int)
    (permits : Nat) (hp : diskQueue.length ≤ permits) :
    (∀ fuel, diskQueue.length ≤ fuel →
      ∃ r, processFIFO fuel diskQueue head permits = Outcome.returned r ∧ r.diskQueue = [] ∧
        List.Perm (r.serviced.map clearSeek) (diskQueue.map clearSeek) ∧
        r.operationCount = diskQueue.length) ∧
    (∀ fuel, diskQueue.length ≤ fuel →
      ∃ r, processSSTF fuel diskQueue head permits = Outcome.returned r ∧ r.diskQueue = [] ∧
        List.Perm (r.serviced.map clearSeek) (diskQueue.map clearSeek) ∧
        r.operationCount = diskQueue.length) ∧
    (∀ fuel, 2 * diskQueue.length + 1 ≤ fuel →
      ∃ r, processSCAN fuel diskQueue head permits = Outcome.returned r ∧ r.diskQueue = [] ∧
        List.Perm (r.serviced.map clearSeek) (diskQueue.map clearSeek) ∧
        r.operationCount = diskQueue.length) := by
  have hfinal : ∀ r : DiskRun, r.diskQueue = [] → accountsFor diskQueue r →
      List.Perm (r.serviced.map clearSeek) (diskQueue.map clearSeek) ∧
        r.operationCount = diskQueue.length := by
    intro r hemp hacc
    obtain ⟨hp, hc, _⟩ := hacc
    rw [hemp] at hp hc
    exact ⟨by simpa using hp, by simpa using hc⟩
  refine ⟨?_, ?_, ?_⟩
  · intro fuel hfuel
    obtain ⟨r, hr, hemp, hacc⟩ :=
      whileNonEmpty_terminates fifoBody (fun run => run.diskQueue.length)
        (accountsFor diskQueue) (fifoBody_step diskQueue) fuel (startRun diskQueue head permits)
        (accountsFor_start diskQueue head permits hp) hfuel
    exact ⟨r, hr, hemp, hfinal r hemp hacc⟩
  · intro fuel hfuel
    obtain ⟨r, hr, hemp, hacc⟩ :=
      whileNonEmpty_terminates sstfBody (fun run => run.diskQueue.length)
        (accountsFor diskQueue) (sstfBody_step diskQueue) fuel (startRun diskQueue head permits)
        (accountsFor_start diskQueue head permits hp) hfuel
    exact ⟨r, hr, hemp, hfinal r hemp hacc⟩
  · intro fuel hfuel
    obtain ⟨r, hr, hemp, hacc⟩ :=
      whileNonEmpty_terminates scanBody scanMeasure
        (accountsFor diskQueue) (scanBody_step diskQueue) fuel (startRun diskQueue head permits)
        (accountsFor_start diskQueue head permits hp)
        (le_trans (scanMeasure_le _) hfuel)
    exact ⟨r, hr, hemp, hfinal r hemp hacc⟩

theorem scanUpLoop_blocked (it : Nat) (fuel : Nat) (run : DiskRun)
    (hit : it < run.diskQueue.length) (hsem : run.mutex_sub = 0) :
    ∃ r op, scanUpLoop it (fuel + 1) run = Outcome.blocked r op := by
  unfold scanUpLoop
  rw [if_pos (Nat.ne_of_lt hit), List.getElem?_eq_getElem hit]
  simp only [serviceAt_blocked run it _ hsem, blockedAt, Outcome.andThen]
  exact ⟨_, _, rfl⟩

theorem scanDownLoop_blocked (it : Nat) (run : DiskRun) (hpos : 0 < it)
    (hit : it ≤ run.diskQueue.length) (hsem : run.mutex_sub = 0) :
    ∃ r op, scanDownLoop it run = Outcome.blocked r op := by
  cases it with
  | zero => exact absurd hpos (Nat.lt_irrefl 0)
  | succ m =>
    unfold scanDownLoop
    rw [List.getElem?_eq_getElem (by omega)]
    simp only [serviceAt_blocked run m _ hsem, blockedAt, Outcome.andThen]
    split <;> exact ⟨_, _, rfl⟩

theorem scanBody_without_post (run : DiskRun) (hne : run.diskQueue ≠ [])
    (hsem : run.mutex_sub = 0) :
    (∃ r op, scanBody run = Outcome.blocked r op) ∨
      (∃ r, scanBody run = Outcome.returned r ∧ r.diskQueue ≠ [] ∧ r.mutex_sub = 0) := by
  have hpos : 0 < run.diskQueue.length := List.length_pos.mpr hne
  cases hdir : run.direction with
  | true =>
    have hperm : List.Perm (sortAscending run.diskQueue) run.diskQueue :=
      List.perm_insertionSort _ _
    have hlen := hperm.length_eq
    rw [scanBody_up run hdir]
    by_cases hidx : (sortAscending run.diskQueue).findIdx
        (fun op => decide (op.diskAddress ≥ run.currentHeadPosition)) ≠
        (sortAscending run.diskQueue).length
    · left
      rw [if_pos hidx]
      have hle : (sortAscending run.diskQueue).findIdx
          (fun op => decide (op.diskAddress ≥ run.currentHeadPosition)) ≤
          (sortAscending run.diskQueue).length := List.findIdx_le_length _
      obtain ⟨n, hn⟩ := Nat.exists_eq_succ_of_ne_zero
        (Nat.ne_of_gt (by omega : 0 < (sortAscending run.diskQueue).length))
      rw [hn]
      obtain ⟨r, op, hb⟩ := scanUpLoop_blocked
        ((sortAscending run.diskQueue).findIdx
          (fun op => decide (op.diskAddress ≥ run.currentHeadPosition))) n
        { run with diskQueue := sortAscending run.diskQueue }
        (by dsimp only; omega) hsem
      exact ⟨r, op, by rw [hb]; rfl⟩
    · right
      rw [if_neg hidx]
      refine ⟨_, rfl, ?_, hsem⟩
      dsimp only
      exact List.ne_nil_of_length_pos (by omega)
  | false =>
    have hperm : List.Perm (sortDescending run.diskQueue) run.diskQueue :=
      List.perm_insertionSort _ _
    have hlen := hperm.length_eq
    rw [scanBody_down run hdir]
    by_cases hidx : (sortDescending run.diskQueue).length -
        (sortDescending run.diskQueue).reverse.findIdx
          (fun op => decide (op.diskAddress ≤ run.currentHeadPosition)) ≠ 0
    · left
      rw [if_pos hidx]
      obtain ⟨r, op, hb⟩ := scanDownLoop_blocked
        ((sortDescending run.diskQueue).length -
          (sortDescending run.diskQueue).reverse.findIdx
            (fun op => decide (op.diskAddress ≤ run.currentHeadPosition)))
        { run with diskQueue := sortDescending run.diskQueue }
        (by omega) (by dsimp only; omega) hsem
      exact ⟨r, op, by rw [hb]; rfl⟩
    · right
      rw [if_neg hidx]
      refine ⟨_, rfl, ?_, hsem⟩
      dsimp only
      exact List.ne_nil_of_length_pos (by omega)

/-- With `mutex_sub` at 0, its value after `initSemaphores`, none of `processFIFO`,
`processSSTF` and `processSCAN` returns on a non-empty queue, whatever the number of
iterations allowed. -/
theorem never_returns_without_post (diskQueue : List DiskOperation) (head : Int)
    (hne : diskQueue ≠ []) (fuel : Nat) :
    (processFIFO fuel diskQueue head 0).returnedRun = none ∧
    (processSSTF fuel diskQueue head 0).returnedRun = none ∧
    (processSCAN fuel diskQueue head 0).returnedRun = none := by
  refine ⟨?_, ?_, ?_⟩
  · refine whileNonEmpty_never_returns fifoBody
      (fun run => run.diskQueue ≠ [] ∧ run.mutex_sub = 0) (fun _ h => h.1) ?_ fuel _ ⟨hne, rfl⟩
    intro run hinv
    left
    cases hq : run.diskQueue with
    | nil => exact absurd hq hinv.1
    | cons op rest =>
      have h : fifoBody run = blockedAt run op := by
        unfold fifoBody
        rw [hq]
        exact serviceAt_blocked run 0 op hinv.2
      unfold blockedAt at h
      exact ⟨_, _, h⟩
  · refine whileNonEmpty_never_returns sstfBody
      (fun run => run.diskQueue ≠ [] ∧ run.mutex_sub = 0) (fun _ h => h.1) ?_ fuel _ ⟨hne, rfl⟩
    intro run hinv
    left
    obtain ⟨i, op, _, _, _, hbody⟩ := sstfBody_spec run hinv.1
    have h : sstfBody run = blockedAt run op := by
      rw [hbody]; exact serviceAt_blocked run i op hinv.2
    unfold blockedAt at h
    exact ⟨_, _, h⟩
  · refine whileNonEmpty_never_returns scanBody
      (fun run => run.diskQueue ≠ [] ∧ run.mutex_sub = 0) (fun _ h => h.1) ?_ fuel _ ⟨hne, rfl⟩
    intro run hinv
    rcases scanBody_without_post run hinv.1 hinv.2 with h | ⟨r, hr, h1, h2⟩
    · exact Or.inl h
    · exact Or.inr ⟨r, hr, h1, h2⟩

/-- C18 (code evaluated at the failing input): head 53, pending queue with addresses
98, 37, and `mutex_sub` at 0 as `initSemaphores` leaves it.  Each of `processFIFO`,
`processSSTF` and `processSCAN` blocks in its first call of `processDiskOperation`
(on 98, on 37 and on 98): both operations are still in the queue, `operationCount` is
0 and nothing has been serviced. -/
theorem disk_loops_block_on_first_operation :
    processFIFO 5 [mkOp 98, mkOp 37] 53 0 =
      Outcome.blocked
        { diskQueue := [mkOp 98, mkOp 37], currentHeadPosition := 53, direction := true,
          totalSeekTime := 45, operationCount := 0, serviced := [], mutex_sub := 0,
          mutex_main := 0 }
        { mkOp 98 with seekTime := 45 } ∧
    processSSTF 5 [mkOp 98, mkOp 37] 53 0 =
      Outcome.blocked
        { diskQueue := [mkOp 98, mkOp 37], currentHeadPosition := 53, direction := true,
          totalSeekTime := 16, operationCount := 0, serviced := [], mutex_sub := 0,
          mutex_main := 0 }
        { mkOp 37 with seekTime := 16 } ∧
    processSCAN 5 [mkOp 98, mkOp 37] 53 0 =
      Outcome.blocked
        { diskQueue := [mkOp 37, mkOp 98], currentHeadPosition := 53, direction := true,
          totalSeekTime := 45, operationCount := 0, serviced := [], mutex_sub := 0,
          mutex_main := 0 }
        { mkOp 98 with seekTime := 45 } := by
  decide

/-! ## C16: SCAN sweep order -/

/-- What the downward branch of `processSCAN` does on a queue sorted by decreasing
address whose last (smallest) address is not above the head: `it` is `end()`, and the
`do ... while` loop walks from the last element back to the first, so the queue is
serviced from its end (here with `mutex_sub` at 2, so that both waits are passed). -/
theorem scanDownLoop_from_end_example :
    (scanDownLoop 2 { startRun [mkOp 20, mkOp 10] 60 2 with direction := false }).returnedRun.map
      (fun r => r.serviced.map (fun op => op.diskAddress)) = some [10, 20] := by
  decide

/-- C16 (code evaluated at the failing input): head 50, pending queue with addresses
60, 10, 20, and `mutex_sub` at 3 so that every wait of `processDiskOperation` is
passed.  The first iteration of `processSCAN` is the upward sweep: it services 60,
leaves 10 and 20 pending, moves the head to 60 and turns the direction downward.  The
second iteration, the downward sweep, services 10 and then 20: increasing addresses.
The whole run services 60, 10, 20. -/
theorem scan_downward_sweep_increasing :
    ((scanBody (startRun [mkOp 60, mkOp 10, mkOp 20] 50 3)).returnedRun.map
        (fun r => (r.serviced.map (fun op => op.diskAddress),
          r.diskQueue.map (fun op => op.diskAddress), r.currentHeadPosition, r.direction)) =
      some ([60], [10, 20], 60, false)) ∧
    (((scanBody (startRun [mkOp 60, mkOp 10, mkOp 20] 50 3)).andThen scanBody).returnedRun.map
        (fun r => (r.serviced.map (fun op => op.diskAddress), r.diskQueue)) =
      some ([60, 10, 20], [])) ∧
    (processSCAN 7 [mkOp 60, mkOp 10, mkOp 20] 50 3).returnedRun.map
        (fun r => r.serviced.map (fun op => op.diskAddress)) = some [60, 10, 20] := by
  decide

end PageSim
